import Mathlib

/-!
Shallow embedding of the core text and filesystem utilities of the
`vscode-ai-notetaking` extension (AI Note Saver).

Strings are modelled as `List Char`; `"…".data` injects Lean string
literals.  The embedded functions follow the TypeScript sources:

* `similarity`, `topMatches`    — folder scoring/ranking in `generateRelPath`
  (unnamed extension variant, lines 184–199);
* `generateRelPathNorm`         — the path normalisation in `generateRelPath`
  (`src/extension.ts`, lines 150–161);
* `sanitizeSlug`, `generateSlug`— slug sanitisation (`src/extension.ts` 167–206);
* `upsertFrontmatterKeys`       — YAML frontmatter patching (`frontmatter.ts`);
* `removeEmptyDirsRecursively`  — upward empty-directory pruning
  (`src/extension.ts`, lines 248–261), over an explicit filesystem model;
* `getAllFolders`               — the folder scanner (`src/files.ts`).
-/

namespace AINotes

/-- Character set of the JS whitespace characters removed by `String.trim`
(ASCII portion: space, tab, newline, carriage return, vertical tab, form feed). -/
def isJsSpace (c : Char) : Bool :=
  decide (c = ' ' ∨ c = '\t' ∨ c = '\n' ∨ c = '\r' ∨ c = '\x0b' ∨ c = '\x0c')

/-- Leading-whitespace removal (the left half of JS `String.trim`). -/
def trimL (l : List Char) : List Char :=
  l.dropWhile isJsSpace

/-- Trailing-whitespace removal (the right half of JS `String.trim`). -/
def trimR (l : List Char) : List Char :=
  (l.reverse.dropWhile isJsSpace).reverse

/-- JS `String.prototype.trim`. -/
def trim (l : List Char) : List Char :=
  trimR (trimL l)

/-- JS `String.prototype.split` with a single-character separator:
`"".split(sep) = [""]`, separators delimit (possibly empty) pieces. -/
def splitCh (sep : Char) : List Char → List (List Char)
  | [] => [[]]
  | c :: rest =>
    if c = sep then [] :: splitCh sep rest
    else
      match splitCh sep rest with
      | [] => [[c]]
      | h :: t => (c :: h) :: t

/-- JS `Array.prototype.join` with a separator string. -/
def joinSep (sep : List Char) : List (List Char) → List Char
  | [] => []
  | [x] => x
  | x :: y :: t => x ++ sep ++ joinSep sep (y :: t)

/-- Concatenation of lines, each terminated by a newline. -/
def joinNl (ls : List (List Char)) : List Char :=
  ls.foldr (fun l acc => l ++ '\n' :: acc) []

/-! ## PathMatcher: `similarity` and the top-match ranking -/

/-- Embedding of `normalize` from `generateRelPath`: `s.replace(/_/g, '-').toLowerCase()`. -/
def normalize (s : List Char) : List Char :=
  (s.map fun c => if c = '_' then '-' else c).map Char.toLower

/-- The scoring loop of `similarity`: count segments matching from the
start, stopping at the first mismatch. -/
def leadMatch : List (List Char) → List (List Char) → Nat
  | x :: xs, y :: ys => if x = y then leadMatch xs ys + 1 else 0
  | _, _ => 0

/-- Embedding of `similarity(a, b)` from `generateRelPath`:
`score * 2 - Math.abs(aSegs.length - bSegs.length)` where the segments are
the normalised paths split at the path separator. -/
def similarity (a b : List Char) : Int :=
  let aSegs := splitCh '/' (normalize a)
  let bSegs := splitCh '/' (normalize b)
  (leadMatch aSegs bSegs : Int) * 2 -
    (((aSegs.length : Int) - (bSegs.length : Int)).natAbs : Int)

/-- Ranking of candidate folders from `generateRelPath`: score every folder,
sort descending by score (stable), keep scores `> 0`, take the first 3. -/
def topMatches (existingFolders : List (List Char)) (aiPath : List Char) :
    List (List Char × Int) :=
  let folderScores := existingFolders.map fun f => (f, similarity f aiPath)
  let sorted := folderScores.mergeSort fun a b => decide (b.2 ≤ a.2)
  (sorted.filter fun f => decide (0 < f.2)).take 3

/-- Spec-side formula: count of leading segments that match exactly between
the two segment sequences, stopping at the first mismatch. -/
def countLeadingMatches (a b : List (List Char)) : Nat :=
  ((a.zip b).takeWhile fun p => decide (p.1 = p.2)).length

/-- Spec-side segment normalisation: split at the separator, then normalise
each segment (underscores to dashes, lowercased). -/
def segsNormalized (s : List Char) : List (List Char) :=
  (splitCh '/' s).map normalize

/-! ## `generateRelPath` output normalisation (`src/extension.ts` 158–159) -/

/-- Normalisation applied to the AI path suggestion:
`relPath.trim().split('/').slice(0, 3).map(seg => seg.replace(/_/g, '-')).join('/')`. -/
def generateRelPathNorm (aiResp : List Char) : List Char :=
  let relPath := trim aiResp
  joinSep "/".data
    (((splitCh '/' relPath).take 3).map (List.map fun c => if c = '_' then '-' else c))

/-! ## `sanitizeSlug` and `generateSlug` (`src/extension.ts` 167–206) -/

/-- Character class `[a-z0-9-]` of the slug regexes. -/
def isSlugChar (c : Char) : Bool :=
  decide (('a' ≤ c ∧ c ≤ 'z') ∨ ('0' ≤ c ∧ c ≤ '9') ∨ c = '-')

/-- JS `replace(/[^a-z0-9-]+/g, '-')`: every maximal run of characters
outside `[a-z0-9-]` becomes a single dash.  The flag records whether the
previous character was part of such a run. -/
def replaceDisallowedRuns : Bool → List Char → List Char
  | _, [] => []
  | inRun, c :: rest =>
    if isSlugChar c then c :: replaceDisallowedRuns false rest
    else if inRun then replaceDisallowedRuns true rest
    else '-' :: replaceDisallowedRuns true rest

/-- JS `replace(/^-+|-+$/g, '')`: strip leading and trailing dash runs. -/
def stripEdgeDashes (l : List Char) : List Char :=
  ((l.dropWhile fun c => decide (c = '-')).reverse.dropWhile
    fun c => decide (c = '-')).reverse

/-- JS replacement of every dash run by a single dash (the third `replace`
of `sanitizeSlug`).  The flag records whether the previous kept character
was a dash. -/
def collapseDashes : Bool → List Char → List Char
  | _, [] => []
  | prevDash, c :: rest =>
    if c = '-' then
      if prevDash then collapseDashes true rest
      else '-' :: collapseDashes true rest
    else c :: collapseDashes false rest

/-- Embedding of `sanitizeSlug` from `src/extension.ts`: lowercase, replace disallowed
runs by dashes, strip edge dashes, collapse dash runs. -/
def sanitizeSlug (input : List Char) : List Char :=
  collapseDashes false
    (stripEdgeDashes (replaceDisallowedRuns false (input.map Char.toLower)))

/-- Embedding of `generateSlug`'s final step (`sanitizeSlug(raw) || 'note'`) applied to
the trimmed AI response. -/
def generateSlug (raw : List Char) : List Char :=
  let s := sanitizeSlug (trim raw)
  if s = [] then "note".data else s

/-! ## FrontmatterEditor: `upsertFrontmatterKeys` (`frontmatter.ts`) -/

/-- Value of a frontmatter key: a scalar string or an array of strings. -/
inductive FMVal where
  | str (s : List Char)
  | arr (xs : List (List Char))
deriving DecidableEq

/-- Rendering of an upserted key (`key: value` or `key: [v1, v2, ...]`). -/
def renderLine (k : List Char) : FMVal → List Char
  | .str s => k ++ ": ".data ++ s
  | .arr xs => k ++ ": [".data ++ joinSep ", ".data xs ++ "]".data

/-- Whether a character list starts with three dashes. -/
def startsTD (l : List Char) : Bool :=
  decide (l.take 3 = ['-', '-', '-'])

/-- First occurrence of `---`: splits `l` as `before ++ --- ++ after`,
returning `(before, after)` for the leftmost occurrence (the behaviour of
the lazy quantifier in the frontmatter regex). -/
def findTD : List Char → Option (List Char × List Char)
  | [] => none
  | c :: rest =>
    if startsTD (c :: rest) then some ([], rest.drop 2)
    else
      match findTD rest with
      | some (a, b) => some (c :: a, b)
      | none => none

/-- Match of the frontmatter regex `^---\n([\s\S]*?)?---\n?` against the
content: returns the matched block and the remaining content.  The content
must begin with a `---` line; the block extends to the first later `---`
and greedily takes one following newline. -/
def fmMatch : List Char → Option (List Char × List Char)
  | '-' :: '-' :: '-' :: '\n' :: t =>
    (match findTD t with
     | some (body, after) =>
       match after with
       | '\n' :: r => some ("---\n".data ++ body ++ "---\n".data, r)
       | r => some ("---\n".data ++ body ++ "---".data, r)
     | none => none)
  | _ => none

/-- Character class `[a-zA-Z0-9_-]` of the frontmatter key regex. -/
def isKeyChar (c : Char) : Bool :=
  decide (('a' ≤ c ∧ c ≤ 'z') ∨ ('A' ≤ c ∧ c ≤ 'Z') ∨ ('0' ≤ c ∧ c ≤ '9') ∨
    c = '_' ∨ c = '-')

/-- Key extraction of a frontmatter line: the regex
match of the trimmed line against the key pattern (a non-empty run of key
characters followed immediately by a colon). -/
def lineKey (l : List Char) : Option (List Char) :=
  let t := trim l
  let ks := t.takeWhile isKeyChar
  if ks ≠ [] ∧ (t.drop ks.length).head? = some ':' then some ks else none

/-- Lookup of the rendered line for a key (`newKeyLines[key]`). -/
def lookupRender : List (List Char × List Char) → List Char → Option (List Char)
  | [], _ => none
  | e :: rest, k => if e.1 = k then some e.2 else lookupRender rest k

/-- Replacement applied to one retained frontmatter line: if its key matches
an upserted key, the whole line becomes the rendered form. -/
def replaceLine (nkl : List (List Char × List Char)) (l : List Char) : List Char :=
  match lineKey l with
  | some k =>
    match lookupRender nkl k with
    | some r => r
    | none => l
  | none => l

/-- New-key association list built from the upserted mapping
(`newKeyLines[key] = rendered line`, in mapping order). -/
def newKeyLines (keyValues : List (List Char × FMVal)) :
    List (List Char × List Char) :=
  keyValues.map fun p => (p.1, renderLine p.1 p.2)

/-- Existing-block branch of `upsertFrontmatterKeys`: split the block into
lines, drop blank and delimiter lines, replace lines whose key is upserted,
append rendered lines of keys not yet applied, and reassemble (falling back
to the rendered keys when no line remains). -/
def upsertWithBlock (nkl : List (List Char × List Char))
    (yamlBlock rest : List Char) : List Char :=
  let yamlLines0 := (splitCh '\n' yamlBlock).filter
    fun l => decide (¬(trim l = [] ∨ trim l = "---".data))
  let yamlLines := yamlLines0.map (replaceLine nkl) ++
    (nkl.filter fun p =>
      !(yamlLines0.any fun l => decide (lineKey l = some p.1))).map (·.2)
  if yamlLines.length > 0 then
    "---\n".data ++ joinSep "\n".data yamlLines ++ "\n---\n".data ++ rest
  else
    "---\n".data ++ joinSep "\n".data (nkl.map (·.2)) ++ "\n---\n".data ++ rest

/-- Embedding of `upsertFrontmatterKeys` from `frontmatter.ts` as a pure string
transform on the document content. -/
def upsertFrontmatterKeys (content : List Char)
    (keyValues : List (List Char × FMVal)) : List Char :=
  match fmMatch content with
  | some (yamlBlock, rest) => upsertWithBlock (newKeyLines keyValues) yamlBlock rest
  | none =>
    "---\n".data ++ joinSep "\n".data ((newKeyLines keyValues).map (·.2)) ++
      "\n---\n".data ++ content

/-! ## DirectoryPruner: `removeEmptyDirsRecursively` (`src/extension.ts` 248–261)

The filesystem is modelled as an association list from absolute directory
paths (lists of segments) to their entry-name listings; a missing
association means the directory does not exist and reading it throws. -/

/-- Absolute path, as a list of segments. -/
abbrev FsPath := List String

/-- Filesystem model for the pruner: existing directories with their entries. -/
abbrev Fs := List (FsPath × List String)

/-- Model of `fs.readdir`: the listing of the first association for the path, `none`
when the directory does not exist (the call throws). -/
def readdir : Fs → FsPath → Option (List String)
  | [], _ => none
  | e :: rest, p => if e.1 = p then some e.2 else readdir rest p

/-- Model of `fs.rmdir`: remove the directory and drop its name from the listing of
its parent. -/
def rmdir (fs : Fs) (p : FsPath) : Fs :=
  let fs' := fs.filter fun e => decide (e.1 ≠ p)
  match p.getLast? with
  | none => fs'
  | some name => fs'.map fun e => if e.1 = p.dropLast then (e.1, e.2.erase name) else e

/-- Loop body of `removeEmptyDirsRecursively`: while the current directory
differs from the workspace folder, list it (throwing if it is missing,
`ok = false`), delete it when empty and ascend to its parent, stop
otherwise.  Returns the deleted directories in deletion order, the final
filesystem, and whether the operation completed without throwing.  The fuel
only bounds the walk, which ascends at each step. -/
def removeEmptyDirsGo (ws : FsPath) : Nat → Fs → FsPath → List FsPath × Fs × Bool
  | 0, fs, _ => ([], fs, false)
  | fuel + 1, fs, curr =>
    if curr = ws then ([], fs, true)
    else
      match readdir fs curr with
      | none => ([], fs, false)
      | some entries =>
        if entries = [] then
          let r := removeEmptyDirsGo ws fuel (rmdir fs curr) curr.dropLast
          (curr :: r.1, r.2.1, r.2.2)
        else ([], fs, true)

/-- Embedding of `removeEmptyDirsRecursively(dir)` with workspace folder `ws`, on the
filesystem model. -/
def removeEmptyDirsRecursively (fs : Fs) (ws : FsPath) (dir : FsPath) :
    List FsPath × Fs × Bool :=
  removeEmptyDirsGo ws (dir.length + 2) fs dir

/-! ## FolderScanner: `getAllFolders` (`src/files.ts`)

Entries carry an `isDirectory` flag; a missing association models a failed
`readdir` (the branch is skipped by the `catch`). -/

/-- Filesystem model for the scanner: directories with typed entries. -/
abbrev FsT := List (FsPath × List (String × Bool))

/-- Directory listing with entry types, `none` on read failure. -/
def readdirT : FsT → FsPath → Option (List (String × Bool))
  | [], _ => none
  | e :: rest, p => if e.1 = p then some e.2 else readdirT rest p

/-- Embedding of `getAllFolders(root, depth, prefixPath)` from `src/files.ts`: depth 0
returns nothing; otherwise list the directory (a failure yields the entries
accumulated so far, here none) and for each directory entry push its
relative path and recurse one level shallower. -/
def getAllFolders (fs : FsT) (root : FsPath) : Nat → FsPath → List FsPath
  | 0, _ => []
  | depth + 1, pre =>
    match readdirT fs (root ++ pre) with
    | none => []
    | some entries =>
      entries.foldl
        (fun result e =>
          if e.2 then
            result ++ [pre ++ [e.1]] ++ getAllFolders fs root depth (pre ++ [e.1])
          else result)
        []

/-! ## Generic list lemmas -/

theorem splitCh_ne_nil (sep : Char) (l : List Char) : splitCh sep l ≠ [] := by
  induction l with
  | nil => simp [splitCh]
  | cons c t ih =>
    simp only [splitCh]
    split
    · simp
    · cases h : splitCh sep t with
      | nil => exact absurd h ih
      | cons a b => simp

theorem splitCh_cons_ne {sep c : Char} {t : List Char} (hc : c ≠ sep)
    {h : List Char} {tl : List (List Char)} (ht : splitCh sep t = h :: tl) :
    splitCh sep (c :: t) = (c :: h) :: tl := by
  simp only [splitCh, if_neg hc, ht]

theorem not_mem_of_mem_splitCh {sep : Char} {l p : List Char}
    (hp : p ∈ splitCh sep l) : sep ∉ p := by
  induction l generalizing p with
  | nil => simp [splitCh] at hp; simp [hp]
  | cons c t ih =>
    by_cases hc : c = sep
    · simp only [splitCh, if_pos hc] at hp
      rcases List.mem_cons.mp hp with h | h
      · simp [h]
      · exact ih h
    · cases h : splitCh sep t with
      | nil => exact absurd h (splitCh_ne_nil sep t)
      | cons a b =>
        rw [splitCh_cons_ne hc h] at hp
        rcases List.mem_cons.mp hp with h1 | h1
        · subst h1
          intro hmem
          rcases List.mem_cons.mp hmem with h2 | h2
          · exact hc h2.symm
          · exact ih (h ▸ List.mem_cons_self a b) h2
        · exact ih (h ▸ List.mem_cons_of_mem a h1)

theorem splitCh_append_sep {sep : Char} {l : List Char} (rest : List Char)
    (h : sep ∉ l) : splitCh sep (l ++ sep :: rest) = l :: splitCh sep rest := by
  induction l with
  | nil => simp [splitCh]
  | cons c t ih =>
    have hc : c ≠ sep := fun hc => h (hc ▸ List.mem_cons_self c t)
    have ht : sep ∉ t := fun hm => h (List.mem_cons_of_mem c hm)
    rw [List.cons_append, splitCh_cons_ne hc (ih ht)]

theorem splitCh_of_not_mem {sep : Char} {l : List Char} (h : sep ∉ l) :
    splitCh sep l = [l] := by
  induction l with
  | nil => simp [splitCh]
  | cons c t ih =>
    have hc : c ≠ sep := fun hc => h (hc ▸ List.mem_cons_self c t)
    have ht : sep ∉ t := fun hm => h (List.mem_cons_of_mem c hm)
    simp only [splitCh, if_neg hc, ih ht]

theorem splitCh_joinSep {sep : Char} {ps : List (List Char)} (hne : ps ≠ [])
    (h : ∀ p ∈ ps, sep ∉ p) : splitCh sep (joinSep [sep] ps) = ps := by
  induction ps with
  | nil => exact absurd rfl hne
  | cons p ps ih =>
    cases ps with
    | nil => simpa [joinSep] using splitCh_of_not_mem (h p (by simp))
    | cons q t =>
      have hp : sep ∉ p := h p (by simp)
      have : joinSep [sep] (p :: q :: t) = p ++ sep :: joinSep [sep] (q :: t) := by
        simp [joinSep]
      rw [this, splitCh_append_sep _ hp,
        ih (by simp) fun r hr => h r (List.mem_cons_of_mem p hr)]

theorem splitCh_map {sep : Char} {f : Char → Char}
    (hf : ∀ c, f c = sep ↔ c = sep) (l : List Char) :
    splitCh sep (l.map f) = (splitCh sep l).map (List.map f) := by
  induction l with
  | nil => simp [splitCh]
  | cons c t ih =>
    by_cases hc : c = sep
    · have : f c = sep := (hf c).mpr hc
      simp only [List.map_cons, splitCh, if_pos hc, if_pos this, ih, List.map_cons]
      rfl
    · have hfc : f c ≠ sep := fun h => hc ((hf c).mp h)
      cases h : splitCh sep t with
      | nil => exact absurd h (splitCh_ne_nil sep t)
      | cons a b =>
        have hm : splitCh sep (t.map f) = a.map f :: b.map (List.map f) := by
          rw [ih, h]; simp
        rw [List.map_cons, splitCh_cons_ne hfc hm, splitCh_cons_ne hc h]
        simp

/-! ## Slug lemmas (C10) -/

theorem mem_replaceDisallowedRuns {c : Char} :
    ∀ {b : Bool} {l : List Char}, c ∈ replaceDisallowedRuns b l → isSlugChar c = true := by
  intro b l
  induction l generalizing b with
  | nil => simp [replaceDisallowedRuns]
  | cons d t ih =>
    intro hc
    simp only [replaceDisallowedRuns] at hc
    by_cases hd : isSlugChar d = true
    · rw [if_pos hd] at hc
      rcases List.mem_cons.mp hc with h | h
      · exact h ▸ hd
      · exact ih h
    · rw [if_neg hd] at hc
      by_cases hb : b = true
      · rw [if_pos hb] at hc
        exact ih hc
      · rw [if_neg hb] at hc
        rcases List.mem_cons.mp hc with h | h
        · subst h; decide
        · exact ih h

theorem mem_collapseDashes {c : Char} :
    ∀ {b : Bool} {l : List Char}, c ∈ collapseDashes b l → c ∈ l := by
  intro b l
  induction l generalizing b with
  | nil => simp [collapseDashes]
  | cons d t ih =>
    intro hc
    simp only [collapseDashes] at hc
    by_cases hd : d = '-'
    · rw [if_pos hd] at hc
      by_cases hb : b = true
      · rw [if_pos hb] at hc
        exact List.mem_cons_of_mem d (ih hc)
      · rw [if_neg hb] at hc
        rcases List.mem_cons.mp hc with h | h
        · simp [h, hd]
        · exact List.mem_cons_of_mem d (ih h)
    · rw [if_neg hd] at hc
      rcases List.mem_cons.mp hc with h | h
      · simp [h]
      · exact List.mem_cons_of_mem d (ih h)

theorem mem_stripEdgeDashes {c : Char} {l : List Char}
    (hc : c ∈ stripEdgeDashes l) : c ∈ l := by
  simp only [stripEdgeDashes] at hc
  rw [List.mem_reverse] at hc
  have h1 := (List.dropWhile_sublist _).mem hc
  rw [List.mem_reverse] at h1
  exact (List.dropWhile_sublist _).mem h1

theorem head?_dropWhile_ne {p : Char → Bool} {l : List Char} {c : Char}
    (h : (l.dropWhile p).head? = some c) : p c = false := by
  induction l with
  | nil => simp [List.dropWhile] at h
  | cons d t ih =>
    rw [List.dropWhile_cons] at h
    split at h
    · exact ih h
    · rename_i hd
      simp only [List.head?_cons, Option.some.injEq] at h
      subst h
      simpa using hd

theorem stripEdgeDashes_head? {l : List Char} {c : Char}
    (h : (stripEdgeDashes l).head? = some c) : c ≠ '-' := by
  simp only [stripEdgeDashes] at h
  set x := l.dropWhile fun c => decide (c = '-') with hx
  have hpre : x = ((x.reverse.dropWhile fun c => decide (c = '-')).reverse) ++
      ((x.reverse.takeWhile fun c => decide (c = '-')).reverse) := by
    conv_lhs => rw [← List.reverse_reverse x,
      ← List.takeWhile_append_dropWhile (fun c => decide (c = '-')) x.reverse]
    rw [List.reverse_append]
  intro hc
  subst hc
  cases hs : ((x.reverse.dropWhile fun c => decide (c = '-')).reverse) with
  | nil => rw [hs] at h; simp at h
  | cons a t =>
    rw [hs] at h
    simp only [List.head?_cons, Option.some.injEq] at h
    subst h
    have hmem : x.head? = some '-' := by
      rw [hpre, hs]; simp
    have := head?_dropWhile_ne (hx ▸ hmem)
    simp at this

theorem stripEdgeDashes_getLast? {l : List Char} {c : Char}
    (h : (stripEdgeDashes l).getLast? = some c) : c ≠ '-' := by
  simp only [stripEdgeDashes, List.getLast?_reverse] at h
  intro hc
  subst hc
  have := head?_dropWhile_ne h
  simp at this

theorem collapseDashes_head?_true {l : List Char} :
    (collapseDashes true l).head? ≠ some '-' := by
  induction l with
  | nil => simp [collapseDashes]
  | cons c t ih =>
    by_cases hc : c = '-'
    · simpa [collapseDashes, hc] using ih
    · simp [collapseDashes, hc]

theorem collapseDashes_chain' : ∀ (b : Bool) (l : List Char),
    (collapseDashes b l).Chain' fun a b => ¬(a = '-' ∧ b = '-') := by
  intro b l
  induction l generalizing b with
  | nil => simp [collapseDashes]
  | cons c t ih =>
    by_cases hc : c = '-'
    · by_cases hb : b = true
      · simpa [collapseDashes, hc, hb] using ih true
      · simp only [collapseDashes, if_pos hc, if_neg hb]
        rw [List.chain'_cons']
        refine ⟨fun y hy => ?_, ih true⟩
        rintro ⟨-, hy'⟩
        exact collapseDashes_head?_true (hy' ▸ hy)
    · simp only [collapseDashes, if_neg hc]
      rw [List.chain'_cons']
      exact ⟨fun y hy h => hc h.1, ih false⟩

theorem collapseDashes_head?_ne {l : List Char} (h : l.head? ≠ some '-') :
    (collapseDashes false l).head? ≠ some '-' := by
  cases l with
  | nil => simp [collapseDashes]
  | cons c t =>
    have hc : c ≠ '-' := by simpa using h
    simp [collapseDashes, hc]

theorem collapseDashes_cons (b : Bool) (c : Char) (t : List Char) :
    collapseDashes b (c :: t) =
      if c = '-' then
        (if b = true then collapseDashes true t else '-' :: collapseDashes true t)
      else c :: collapseDashes false t := rfl

theorem collapseDashes_getLast? {l : List Char} {c : Char} (hc : c ≠ '-')
    (h : l.getLast? = some c) : ∀ b, (collapseDashes b l).getLast? = some c := by
  induction l with
  | nil => simp at h
  | cons d t ih =>
    intro b
    cases t with
    | nil =>
      simp only [List.getLast?_singleton, Option.some.injEq] at h
      subst h
      simp [collapseDashes, hc]
    | cons e t' =>
      rw [List.getLast?_cons_cons] at h
      have hrec := ih h
      by_cases hd : d = '-'
      · by_cases hb : b = true
        · rw [collapseDashes_cons, if_pos hd, if_pos hb]
          exact hrec true
        · rw [collapseDashes_cons, if_pos hd, if_neg hb]
          cases hcc : collapseDashes true (e :: t') with
          | nil => exact absurd ((hcc ▸ hrec true)).symm (by simp)
          | cons a u =>
            have h2 := hrec true
            rw [hcc] at h2
            rw [List.getLast?_cons_cons]
            exact h2
      · rw [collapseDashes_cons, if_neg hd]
        cases hcc : collapseDashes false (e :: t') with
        | nil => exact absurd ((hcc ▸ hrec false)).symm (by simp)
        | cons a u =>
          have h2 := hrec false
          rw [hcc] at h2
          rw [List.getLast?_cons_cons]
          exact h2

/-! ## Lemmas about `findTD` (first occurrence of three dashes) -/

theorem length_of_startsTD {l : List Char} (h : startsTD l = true) :
    3 ≤ l.length := by
  by_contra hlen
  push_neg at hlen
  rw [startsTD, decide_eq_true_iff, List.take_of_length_le (Nat.le_of_lt hlen)] at h
  subst h
  simp at hlen

theorem startsTD_append_eq {l : List Char} (z : List Char) (hl : 3 ≤ l.length) :
    startsTD (l ++ z) = startsTD l := by
  rw [startsTD, startsTD, List.take_append_of_le_length hl]

theorem startsTD_append {l : List Char} (z : List Char) (h : startsTD l = true) :
    startsTD (l ++ z) = true := by
  rw [startsTD_append_eq z (length_of_startsTD h)]
  exact h

theorem findTD_cons (c : Char) (rest : List Char) :
    findTD (c :: rest) =
      if startsTD (c :: rest) = true then some ([], rest.drop 2)
      else
        match findTD rest with
        | some (a, b) => some (c :: a, b)
        | none => none := by
  simp [findTD]

theorem findTD_cons_eq_none {c : Char} {rest : List Char}
    (h : findTD (c :: rest) = none) :
    startsTD (c :: rest) = false ∧ findTD rest = none := by
  rw [findTD_cons] at h
  split at h
  · simp at h
  · rename_i hs
    cases hr : findTD rest with
    | none => exact ⟨by simpa using hs, rfl⟩
    | some p => rw [hr] at h; cases p; simp at h

theorem isSome_findTD_append_left {xs : List Char} (ys : List Char)
    (h : (findTD xs).isSome) : (findTD (xs ++ ys)).isSome := by
  induction xs with
  | nil => simp [findTD] at h
  | cons c t ih =>
    rw [List.cons_append, findTD_cons]
    by_cases hs : startsTD (c :: (t ++ ys)) = true
    · simp [hs]
    · have hs0 : startsTD (c :: t) = false := by
        by_contra h0
        rw [Bool.not_eq_false] at h0
        exact hs (by simpa using startsTD_append ys h0)
      rw [findTD_cons, hs0] at h
      simp only [Bool.false_eq_true, if_false] at h
      cases ht : findTD t with
      | none => rw [ht] at h; simp at h
      | some p =>
        have := ih (by simp [ht])
        cases hty : findTD (t ++ ys) with
        | none => rw [hty] at this; simp at this
        | some q => simp [hs, hty]

theorem isSome_findTD_append_right (xs : List Char) {ys : List Char}
    (h : (findTD ys).isSome) : (findTD (xs ++ ys)).isSome := by
  induction xs with
  | nil => simpa using h
  | cons c t ih =>
    rw [List.cons_append, findTD_cons]
    by_cases hs : startsTD (c :: (t ++ ys)) = true
    · simp [hs]
    · cases hty : findTD (t ++ ys) with
      | none => rw [hty] at ih; simp at ih
      | some q => simp [hs, hty]

theorem findTD_eq_none_append_nl {l z : List Char} (hl : findTD l = none)
    (hz : findTD z = none) : findTD (l ++ '\n' :: z) = none := by
  induction l with
  | nil =>
    rw [List.nil_append, findTD_cons]
    have hs : startsTD ('\n' :: z) = false := by
      rw [startsTD, decide_eq_false_iff_not]
      intro hc
      cases z with
      | nil => simp at hc
      | cons a z' => simp [List.take_succ_cons] at hc
    rw [hs]
    simp [hz]
  | cons c t ih =>
    obtain ⟨hs0, ht⟩ := findTD_cons_eq_none hl
    have hrec := ih ht
    rw [List.cons_append, findTD_cons]
    have hs : startsTD (c :: (t ++ '\n' :: z)) = false := by
      cases t with
      | nil =>
        rw [startsTD, decide_eq_false_iff_not]
        intro hc
        simp [List.take_succ_cons] at hc
      | cons a t' =>
        cases t' with
        | nil =>
          rw [startsTD, decide_eq_false_iff_not]
          intro hc
          simp [List.take_succ_cons] at hc
        | cons b t'' =>
          have h3 : 3 ≤ (c :: a :: b :: t'').length := by simp
          calc startsTD (c :: a :: b :: (t'' ++ '\n' :: z))
              = startsTD ((c :: a :: b :: t'') ++ '\n' :: z) := by simp
            _ = startsTD (c :: a :: b :: t'') := startsTD_append_eq _ h3
            _ = false := hs0
    rw [hs]
    simp [hrec]

theorem findTD_joinNl_none {L : List (List Char)}
    (h : ∀ l ∈ L, findTD l = none) : findTD (joinNl L ++ ['-', '-']) = none := by
  induction L with
  | nil => simp [joinNl]; decide
  | cons l L ih =>
    have : joinNl (l :: L) ++ ['-', '-'] = l ++ '\n' :: (joinNl L ++ ['-', '-']) := by
      simp [joinNl]
    rw [this]
    exact findTD_eq_none_append_nl (h l (by simp))
      (ih fun x hx => h x (List.mem_cons_of_mem l hx))

theorem findTD_append_td {xs : List Char} (ys : List Char)
    (h : findTD (xs ++ ['-', '-']) = none) :
    findTD (xs ++ '-' :: '-' :: '-' :: ys) = some (xs, ys) := by
  induction xs with
  | nil =>
    rw [List.nil_append, findTD_cons]
    have hs : startsTD ('-' :: '-' :: '-' :: ys) = true := by
      simp [startsTD]
    rw [hs]
    simp
  | cons c t ih =>
    obtain ⟨hs0, ht⟩ := findTD_cons_eq_none (by simpa using h)
    have hrec := ih ht
    rw [List.cons_append, findTD_cons]
    have hs : startsTD (c :: (t ++ '-' :: '-' :: '-' :: ys)) = false := by
      have hsplit : c :: (t ++ '-' :: '-' :: '-' :: ys) =
          (c :: (t ++ ['-', '-'])) ++ '-' :: ys := by simp
      have h3 : 3 ≤ (c :: (t ++ ['-', '-'])).length := by simp
      rw [hsplit, startsTD_append_eq _ h3]
      exact hs0
    rw [hs]
    simp [hrec]

/-! ## Lemmas about `trim` -/

theorem dropWhile_append_singleton {p : Char → Bool} {c : Char} (xs : List Char)
    (hc : p c = false) : (xs ++ [c]).dropWhile p = xs.dropWhile p ++ [c] := by
  induction xs with
  | nil => simp [List.dropWhile, hc]
  | cons a t ih =>
    rw [List.cons_append, List.dropWhile_cons, List.dropWhile_cons]
    split
    · exact ih
    · simp

theorem trimR_cons {c : Char} (l : List Char) (hc : isJsSpace c = false) :
    trimR (c :: l) = c :: trimR l := by
  rw [trimR, trimR, List.reverse_cons, dropWhile_append_singleton _ hc,
    List.reverse_append]
  simp

theorem trimR_append_cons {k : List Char} {d : Char} (w : List Char)
    (hk : ∀ c ∈ k, isJsSpace c = false) (hd : isJsSpace d = false) :
    trimR (k ++ d :: w) = k ++ d :: trimR w := by
  induction k with
  | nil => simpa using trimR_cons w hd
  | cons c t ih =>
    rw [List.cons_append, trimR_cons _ (hk c (by simp)),
      ih fun x hx => hk x (List.mem_cons_of_mem c hx), List.cons_append]

theorem trim_append_cons {k : List Char} {d : Char} (w : List Char)
    (hknil : k ≠ []) (hk : ∀ c ∈ k, isJsSpace c = false)
    (hd : isJsSpace d = false) : trim (k ++ d :: w) = k ++ d :: trimR w := by
  cases k with
  | nil => exact absurd rfl hknil
  | cons c t =>
    have hc : isJsSpace c = false := hk c (by simp)
    rw [trim, trimL, List.cons_append, List.dropWhile_cons, hc]
    simpa using trimR_append_cons w hk hd

theorem trimL_decomp (l : List Char) : l = l.takeWhile isJsSpace ++ trimL l :=
  (List.takeWhile_append_dropWhile ..).symm

theorem trimR_decomp (l : List Char) :
    l = trimR l ++ (l.reverse.takeWhile isJsSpace).reverse := by
  conv_lhs => rw [← List.reverse_reverse l,
    ← List.takeWhile_append_dropWhile isJsSpace l.reverse]
  rw [List.reverse_append, trimR]

theorem trim_decomp (l : List Char) : ∃ p q, l = p ++ (trim l ++ q) := by
  refine ⟨l.takeWhile isJsSpace, ((trimL l).reverse.takeWhile isJsSpace).reverse, ?_⟩
  conv_lhs => rw [trimL_decomp l]
  rw [trim, ← trimR_decomp (trimL l)]

theorem mem_trim {c : Char} {l : List Char} (hc : c ∈ l)
    (hw : isJsSpace c = false) : c ∈ trim l := by
  have h1 : c ∈ trimL l := by
    rcases List.mem_append.mp (trimL_decomp l ▸ hc) with h | h
    · exact absurd (List.mem_takeWhile_imp h) (by simp [hw])
    · exact h
  rcases List.mem_append.mp (trimR_decomp (trimL l) ▸ h1) with h | h
  · exact h
  · rw [List.mem_reverse] at h
    exact absurd (List.mem_takeWhile_imp h) (by simp [hw])

theorem trim_ne_nil {c : Char} {l : List Char} (hc : c ∈ l)
    (hw : isJsSpace c = false) : trim l ≠ [] := fun h =>
  absurd (mem_trim hc hw) (by simp [h])

theorem trim_ne_td {l : List Char} (h : findTD l = none) :
    trim l ≠ "---".data := by
  intro he
  obtain ⟨p, q, hl⟩ := trim_decomp l
  rw [he] at hl
  have e : "---".data ++ q = '-' :: '-' :: '-' :: q := rfl
  have h1 : (findTD ("---".data ++ q)).isSome := by
    rw [e, findTD_cons]
    have hs : startsTD ('-' :: '-' :: '-' :: q) = true := by simp [startsTD]
    simp [hs]
  have h2 := isSome_findTD_append_right p h1
  rw [← hl, h] at h2
  simp at h2

theorem joinNl_nil : joinNl [] = [] := rfl

theorem joinNl_cons (x : List Char) (t : List (List Char)) :
    joinNl (x :: t) = x ++ '\n' :: joinNl t := rfl

theorem mem_joinNl_decomp {l : List Char} {L : List (List Char)} (hl : l ∈ L) :
    ∃ A B, joinNl L = A ++ (l ++ B) := by
  induction L with
  | nil => simp at hl
  | cons x t ih =>
    rcases List.mem_cons.mp hl with h | h
    · exact ⟨[], '\n' :: joinNl t, by rw [joinNl_cons, h]; simp⟩
    · obtain ⟨A, B, hAB⟩ := ih h
      exact ⟨x ++ '\n' :: A, B, by rw [joinNl_cons, hAB]; simp⟩

theorem findTD_none_of_mem_joinNl {l : List Char} {L : List (List Char)}
    {z : List Char} (htd : findTD (joinNl L ++ z) = none) (hl : l ∈ L) :
    findTD l = none := by
  cases h : findTD l with
  | none => rfl
  | some p =>
    obtain ⟨A, B, hAB⟩ := mem_joinNl_decomp hl
    have h1 : (findTD (l ++ (B ++ z))).isSome := isSome_findTD_append_left _ (by simp [h])
    have h2 := isSome_findTD_append_right A h1
    rw [show A ++ (l ++ (B ++ z)) = (A ++ (l ++ B)) ++ z from by simp, ← hAB, htd] at h2
    simp at h2

/-! ## Characterisation of `fmMatch` and the block rewrite -/

theorem fmMatch_td (t : List Char) :
    fmMatch ('-' :: '-' :: '-' :: '\n' :: t) =
      match findTD t with
      | some (body, after) =>
        (match after with
         | '\n' :: r => some ("---\n".data ++ body ++ "---\n".data, r)
         | r => some ("---\n".data ++ body ++ "---".data, r))
      | none => none := rfl

theorem fmMatch_block {bls : List (List Char)} (rest : List Char)
    (htd : findTD (joinNl bls ++ ['-', '-']) = none) :
    fmMatch ("---\n".data ++ joinNl bls ++ "---\n".data ++ rest) =
      some ("---\n".data ++ joinNl bls ++ "---\n".data, rest) := by
  have e : "---\n".data ++ joinNl bls ++ "---\n".data ++ rest =
      '-' :: '-' :: '-' :: '\n' :: (joinNl bls ++ '-' :: '-' :: '-' :: ('\n' :: rest)) := by
    simp
  rw [e, fmMatch_td, findTD_append_td _ htd]
  simp

theorem splitNl_joinNl {L : List (List Char)} (z : List Char)
    (h : ∀ l ∈ L, '\n' ∉ l) :
    splitCh '\n' (joinNl L ++ z) = L ++ splitCh '\n' z := by
  induction L with
  | nil => simp [joinNl_nil]
  | cons x t ih =>
    rw [joinNl_cons, List.append_assoc, List.cons_append,
      splitCh_append_sep _ (h x (by simp)),
      ih fun l hl => h l (List.mem_cons_of_mem x hl)]
    simp

theorem splitNl_block {bls : List (List Char)} (h : ∀ l ∈ bls, '\n' ∉ l) :
    splitCh '\n' ("---\n".data ++ joinNl bls ++ "---\n".data) =
      "---".data :: (bls ++ ["---".data, []]) := by
  have e : "---\n".data ++ joinNl bls ++ "---\n".data =
      "---".data ++ '\n' :: (joinNl bls ++ "---\n".data) := by simp
  rw [e, splitCh_append_sep _ (by decide), splitNl_joinNl _ h]
  congr 1

theorem joinSep_nl_append {yl : List (List Char)} (z : List Char) (h : yl ≠ []) :
    joinSep "\n".data yl ++ '\n' :: z = joinNl yl ++ z := by
  induction yl with
  | nil => exact absurd rfl h
  | cons x t ih =>
    cases t with
    | nil => simp [joinSep, joinNl_cons, joinNl_nil]
    | cons y u =>
      rw [joinSep, joinNl_cons]
      simp only [List.append_assoc, List.cons_append]
      rw [ih (by simp)]
      simp

/-- Retained lines of a block body after the blank/delimiter filter. -/
def keptLines (bls : List (List Char)) : List (List Char) :=
  bls.filter fun l => decide (¬(trim l = [] ∨ trim l = "---".data))

/-- Body lines produced by the existing-block branch: retained lines with
key replacement applied, then rendered lines of keys not yet applied. -/
def upsertBlockLines (keyValues : List (List Char × FMVal))
    (bls : List (List Char)) : List (List Char) :=
  (keptLines bls).map (replaceLine (newKeyLines keyValues)) ++
    ((newKeyLines keyValues).filter fun p =>
      !((keptLines bls).any fun l => decide (lineKey l = some p.1))).map (·.2)

theorem upsert_block {bls : List (List Char)} (rest : List Char)
    (keyValues : List (List Char × FMVal))
    (hnl : ∀ l ∈ bls, '\n' ∉ l)
    (htd : findTD (joinNl bls ++ ['-', '-']) = none) :
    upsertFrontmatterKeys ("---\n".data ++ joinNl bls ++ "---\n".data ++ rest)
      keyValues =
      (if (upsertBlockLines keyValues bls).length > 0 then
        "---\n".data ++ joinSep "\n".data (upsertBlockLines keyValues bls) ++
          "\n---\n".data ++ rest
      else
        "---\n".data ++
          joinSep "\n".data ((newKeyLines keyValues).map (·.2)) ++
          "\n---\n".data ++ rest) := by
  have hfilter : (splitCh '\n' ("---\n".data ++ joinNl bls ++ "---\n".data)).filter
      (fun l => decide (¬(trim l = [] ∨ trim l = "---".data))) = keptLines bls := by
    rw [splitNl_block hnl, keptLines]
    rw [List.filter_cons, List.filter_append]
    simp only [show (decide (¬(trim "---".data = [] ∨ trim "---".data = "---".data)))
        = false from by decide, show ((["---".data, []]).filter
        fun l => decide (¬(trim l = [] ∨ trim l = "---".data))) = [] from by decide]
    simp
  rw [upsertFrontmatterKeys, fmMatch_block rest htd]
  show upsertWithBlock (newKeyLines keyValues)
      ("---\n".data ++ joinNl bls ++ "---\n".data) rest = _
  rw [upsertWithBlock]
  simp only [hfilter]
  rw [upsertBlockLines]

/-! ## Lemmas about rendered key lines -/

theorem not_isJsSpace_of_isKeyChar {c : Char} (h : isKeyChar c = true) :
    isJsSpace c = false := by
  rw [isKeyChar, decide_eq_true_iff] at h
  rw [isJsSpace, decide_eq_false_iff_not]
  rintro (rfl | rfl | rfl | rfl | rfl | rfl) <;> revert h <;> decide

theorem renderLine_shape (k : List Char) (v : FMVal) :
    ∃ w, renderLine k v = k ++ ':' :: ' ' :: w := by
  cases v with
  | str s => exact ⟨s, by simp [renderLine]⟩
  | arr xs => exact ⟨'[' :: (joinSep ", ".data xs ++ "]".data), by simp [renderLine]⟩

theorem trim_renderLine {k : List Char} (v : FMVal) (hknil : k ≠ [])
    (hk : ∀ c ∈ k, isKeyChar c = true) :
    ∃ w, trim (renderLine k v) = k ++ ':' :: w := by
  obtain ⟨w, hw⟩ := renderLine_shape k v
  refine ⟨trimR (' ' :: w), ?_⟩
  rw [hw]
  exact trim_append_cons _ hknil (fun c hc => not_isJsSpace_of_isKeyChar (hk c hc))
    (by decide)

theorem lineKey_renderLine {k : List Char} (v : FMVal) (hknil : k ≠ [])
    (hk : ∀ c ∈ k, isKeyChar c = true) :
    lineKey (renderLine k v) = some k := by
  obtain ⟨w, hw⟩ := trim_renderLine v hknil hk
  rw [lineKey, hw]
  have htw : (k ++ ':' :: w).takeWhile isKeyChar = k := by
    rw [List.takeWhile_append_of_pos hk]
    have : (':' :: w).takeWhile isKeyChar = [] := by
      rw [List.takeWhile_cons]
      simp [show isKeyChar ':' = false from by decide]
    rw [this, List.append_nil]
  rw [htw]
  rw [if_pos]
  refine ⟨hknil, ?_⟩
  rw [List.drop_left]
  simp

theorem trim_renderLine_ne_nil {k : List Char} (v : FMVal) (hknil : k ≠ [])
    (hk : ∀ c ∈ k, isKeyChar c = true) : trim (renderLine k v) ≠ [] := by
  obtain ⟨w, hw⟩ := trim_renderLine v hknil hk
  rw [hw]
  simp [hknil]

theorem trim_renderLine_ne_td {k : List Char} (v : FMVal) (hknil : k ≠ [])
    (hk : ∀ c ∈ k, isKeyChar c = true) : trim (renderLine k v) ≠ "---".data := by
  obtain ⟨w, hw⟩ := trim_renderLine v hknil hk
  rw [hw]
  intro he
  have hc : ':' ∈ k ++ ':' :: w := List.mem_append_right _ (by simp)
  rw [he] at hc
  simp at hc

theorem lookupRender_newKeyLines {keyValues : List (List Char × FMVal)}
    {k : List Char} {v : FMVal} (hmem : (k, v) ∈ keyValues)
    (hnd : (keyValues.map (·.1)).Nodup) :
    lookupRender (newKeyLines keyValues) k = some (renderLine k v) := by
  induction keyValues with
  | nil => simp at hmem
  | cons p t ih =>
    rw [newKeyLines, List.map_cons]
    rcases List.mem_cons.mp hmem with h | h
    · rw [lookupRender, if_pos (by rw [← h])]
      rw [← h]
    · have hne : p.1 ≠ k := by
        intro he
        rw [List.map_cons, List.nodup_cons] at hnd
        exact hnd.1 (he ▸ List.mem_map_of_mem (·.1) h)
      rw [lookupRender, if_neg hne]
      exact ih h (by rw [List.map_cons, List.nodup_cons] at hnd; exact hnd.2)

theorem lookupRender_nil (k : List Char) : lookupRender [] k = none := rfl

theorem lookupRender_cons (e : List Char × List Char)
    (rest : List (List Char × List Char)) (k : List Char) :
    lookupRender (e :: rest) k =
      if e.1 = k then some e.2 else lookupRender rest k := rfl

theorem replaceLine_of_lineKey_none {nkl : List (List Char × List Char)}
    {l : List Char} (h : lineKey l = none) : replaceLine nkl l = l := by
  simp only [replaceLine, h]

theorem replaceLine_of_lookup_none {nkl : List (List Char × List Char)}
    {l k : List Char} (h : lineKey l = some k)
    (h2 : lookupRender nkl k = none) : replaceLine nkl l = l := by
  simp only [replaceLine, h, h2]

theorem replaceLine_of_lookup_some {nkl : List (List Char × List Char)}
    {l k r : List Char} (h : lineKey l = some k)
    (h2 : lookupRender nkl k = some r) : replaceLine nkl l = r := by
  simp only [replaceLine, h, h2]

theorem replaceLine_single {K r l : List Char} :
    replaceLine [(K, r)] l = if lineKey l = some K then r else l := by
  cases h : lineKey l with
  | none =>
    rw [replaceLine_of_lineKey_none h, if_neg (by simp [h])]
  | some k =>
    by_cases hk : k = K
    · subst hk
      rw [replaceLine_of_lookup_some h (by rw [lookupRender_cons, if_pos rfl])]
      simp [h]
    · have hlk : lookupRender [(K, r)] k = none := by
        rw [lookupRender_cons, if_neg fun he => hk he.symm, lookupRender_nil]
      rw [replaceLine_of_lookup_none h hlk, if_neg (by simp [h, hk])]

/-! ## Claim C2: upsert on content without a frontmatter block -/

/-- C2: for every content string with no existing frontmatter block and every
non-empty key-value mapping, `upsertFrontmatterKeys` returns the block
delimiter line, the rendered key lines in mapping order, the closing
delimiter line, and then the original content unchanged; in particular, for
content `"# Title\n\nBody"` and mapping `{tags: [x, y]}` it returns
`"---\ntags: [x, y]\n---\n# Title\n\nBody"`. -/
theorem claim_C2_upsert_no_block :
    (∀ (content : List Char) (keyValues : List (List Char × FMVal)),
      fmMatch content = none → keyValues ≠ [] →
      upsertFrontmatterKeys content keyValues =
        "---\n".data ++ joinSep "\n".data ((newKeyLines keyValues).map (·.2)) ++
          "\n---\n".data ++ content) ∧
    upsertFrontmatterKeys "# Title\n\nBody".data
        [("tags".data, .arr ["x".data, "y".data])] =
      "---\ntags: [x, y]\n---\n# Title\n\nBody".data := by
  refine ⟨fun content kvs hnone _ => ?_, by decide⟩
  rw [upsertFrontmatterKeys, hnone]

/-- Witness for C2: the hypotheses hold, and the conclusion evaluates, at the
content `"Hello"` with the single scalar key `k: v`. -/
theorem claim_C2_upsert_no_block_witness :
    fmMatch "Hello".data = none ∧
    ([("k".data, FMVal.str "v".data)] : List (List Char × FMVal)) ≠ [] ∧
    upsertFrontmatterKeys "Hello".data [("k".data, FMVal.str "v".data)] =
      "---\nk: v\n---\nHello".data :=
  ⟨by decide, by decide,
    (claim_C2_upsert_no_block.1 _ _ (by decide) (by decide)).trans (by decide)⟩

/-! ## Claim C3: upsert of an existing key -/

/-- C3 falsified as stated: on a block containing a blank line, upserting an
existing key K does not preserve the block's line count — the blank line is
dropped (6 block lines before, 5 after), so not every other line reappears
byte-identically. -/
theorem claim_C3_counterexample :
    upsertFrontmatterKeys "---\ntags: a\n\nx: b\n---\nBody".data
        [("tags".data, FMVal.str "c".data)] =
      "---\ntags: c\nx: b\n---\nBody".data ∧
    (fmMatch "---\ntags: a\n\nx: b\n---\nBody".data).map
        (fun p => (splitCh '\n' p.1).length) = some 6 ∧
    (fmMatch "---\ntags: c\nx: b\n---\nBody".data).map
        (fun p => (splitCh '\n' p.1).length) = some 5 :=
  ⟨by decide, by decide, by decide⟩

/-- C3 (amended): for content whose leading frontmatter block consists of
newline-terminated lines, none blank after trimming and none containing
three dashes, and whose block contains a line for key K, upserting `{K: v2}`
replaces exactly the K lines by the rendered form and keeps every other line
byte-identical in its original position; the block line count is the
original count of lines (blank lines being excluded by hypothesis). -/
theorem claim_C3_upsert_existing_key
    (bls : List (List Char)) (rest K : List Char) (v2 : FMVal)
    (hnl : ∀ l ∈ bls, '\n' ∉ l)
    (htd : findTD (joinNl bls ++ ['-', '-']) = none)
    (hblank : ∀ l ∈ bls, trim l ≠ [])
    (hK : ∃ l ∈ bls, lineKey l = some K) :
    upsertFrontmatterKeys ("---\n".data ++ joinNl bls ++ "---\n".data ++ rest)
        [(K, v2)] =
      "---\n".data ++
        joinNl (bls.map fun l => if lineKey l = some K then renderLine K v2 else l)
        ++ ("---\n".data ++ rest) ∧
    (bls.map fun l => if lineKey l = some K then renderLine K v2 else l).length
      = bls.length := by
  have hkept : keptLines bls = bls := by
    rw [keptLines, List.filter_eq_self]
    intro l hl
    rw [decide_eq_true_iff]
    exact not_or.mpr ⟨hblank l hl, trim_ne_td (findTD_none_of_mem_joinNl htd hl)⟩
  have hmap : (keptLines bls).map (replaceLine (newKeyLines [(K, v2)])) =
      bls.map fun l => if lineKey l = some K then renderLine K v2 else l := by
    rw [hkept]
    exact List.map_congr_left fun l _ => replaceLine_single
  have happ : ((newKeyLines [(K, v2)]).filter fun p =>
      !((keptLines bls).any fun l => decide (lineKey l = some p.1))) = [] := by
    rw [hkept, List.filter_eq_nil_iff]
    obtain ⟨l0, hl0, hkey⟩ := hK
    intro p hp
    have hp' : p = (K, renderLine K v2) := by simpa [newKeyLines] using hp
    subst hp'
    have hany : (bls.any fun l => decide (lineKey l = some K)) = true :=
      List.any_eq_true.mpr ⟨l0, hl0, by simp [hkey]⟩
    simp [hany]
  have hub : upsertBlockLines [(K, v2)] bls =
      bls.map fun l => if lineKey l = some K then renderLine K v2 else l := by
    rw [upsertBlockLines, hmap, happ]
    simp
  obtain ⟨l0, hl0, -⟩ := hK
  have hbne : bls ≠ [] := fun h => by simp [h] at hl0
  have hMne : (bls.map fun l =>
      if lineKey l = some K then renderLine K v2 else l) ≠ [] := by
    simpa using hbne
  refine ⟨?_, by simp⟩
  rw [upsert_block rest _ hnl htd, hub,
    if_pos (by simpa [List.length_pos] using hMne)]
  simp only [List.append_assoc]
  rw [show ("\n---\n".data ++ rest) = '\n' :: ("---\n".data ++ rest) from rfl,
    joinSep_nl_append _ hMne]

/-- Witness for C3 (amended): concrete block `tags: a / x: b` with key
`tags` updated to `c`. -/
theorem claim_C3_upsert_existing_key_witness :
    (∀ l ∈ ["tags: a".data, "x: b".data], '\n' ∉ l) ∧
    findTD (joinNl ["tags: a".data, "x: b".data] ++ ['-', '-']) = none ∧
    (∀ l ∈ ["tags: a".data, "x: b".data], trim l ≠ []) ∧
    (∃ l ∈ ["tags: a".data, "x: b".data], lineKey l = some "tags".data) ∧
    upsertFrontmatterKeys
        ("---\n".data ++ joinNl ["tags: a".data, "x: b".data] ++ "---\n".data ++
          "Body".data) [("tags".data, FMVal.str "c".data)] =
      "---\ntags: c\nx: b\n---\nBody".data :=
  ⟨by decide, by decide, by decide, ⟨"tags: a".data, by decide⟩,
    ((claim_C3_upsert_existing_key ["tags: a".data, "x: b".data] "Body".data
      "tags".data (FMVal.str "c".data) (by decide) (by decide) (by decide)
      ⟨"tags: a".data, by decide⟩).1).trans (by decide)⟩

/-! ## Idempotence machinery (C4) -/

theorem lookupRender_mem_newKeyLines {keyValues : List (List Char × FMVal)}
    {k r : List Char} (h : lookupRender (newKeyLines keyValues) k = some r) :
    ∃ p ∈ keyValues, p.1 = k ∧ r = renderLine p.1 p.2 := by
  induction keyValues with
  | nil => simp [newKeyLines, lookupRender_nil] at h
  | cons q t ih =>
    rw [newKeyLines, List.map_cons, lookupRender_cons] at h
    split at h
    · rename_i he
      simp only [Option.some.injEq] at h
      exact ⟨q, by simp, he, h.symm⟩
    · obtain ⟨p, hp, h1, h2⟩ := ih h
      exact ⟨p, List.mem_cons_of_mem q hp, h1, h2⟩

theorem lookupRender_isSome_of_mem {keyValues : List (List Char × FMVal)}
    {p : List Char × FMVal} (h : p ∈ keyValues) :
    ∃ r, lookupRender (newKeyLines keyValues) p.1 = some r := by
  induction keyValues with
  | nil => simp at h
  | cons q t ih =>
    rw [newKeyLines, List.map_cons, lookupRender_cons]
    by_cases he : q.1 = p.1
    · exact ⟨renderLine q.1 q.2, by rw [if_pos he]⟩
    · rcases List.mem_cons.mp h with h1 | h1
      · exact absurd (h1 ▸ rfl) he
      · rw [if_neg he]
        exact ih h1

theorem replaceLine_renderLine_self {keyValues : List (List Char × FMVal)}
    {p : List Char × FMVal} (hp : p ∈ keyValues)
    (hkeys : ∀ q ∈ keyValues, q.1 ≠ [] ∧ ∀ c ∈ q.1, isKeyChar c = true)
    (hnodup : (keyValues.map (·.1)).Nodup) :
    replaceLine (newKeyLines keyValues) (renderLine p.1 p.2) =
      renderLine p.1 p.2 := by
  obtain ⟨h1, h2⟩ := hkeys p hp
  exact replaceLine_of_lookup_some (lineKey_renderLine p.2 h1 h2)
    (lookupRender_newKeyLines hp hnodup)

theorem replaceLine_idem {keyValues : List (List Char × FMVal)} (l : List Char)
    (hkeys : ∀ q ∈ keyValues, q.1 ≠ [] ∧ ∀ c ∈ q.1, isKeyChar c = true)
    (hnodup : (keyValues.map (·.1)).Nodup) :
    replaceLine (newKeyLines keyValues) (replaceLine (newKeyLines keyValues) l) =
      replaceLine (newKeyLines keyValues) l := by
  cases h : lineKey l with
  | none => rw [replaceLine_of_lineKey_none h, replaceLine_of_lineKey_none h]
  | some k =>
    cases h2 : lookupRender (newKeyLines keyValues) k with
    | none => rw [replaceLine_of_lookup_none h h2, replaceLine_of_lookup_none h h2]
    | some r =>
      rw [replaceLine_of_lookup_some h h2]
      obtain ⟨p, hp, -, hr⟩ := lookupRender_mem_newKeyLines h2
      rw [hr]
      exact replaceLine_renderLine_self hp hkeys hnodup

theorem replaceLine_shape {keyValues : List (List Char × FMVal)} (l : List Char) :
    replaceLine (newKeyLines keyValues) l = l ∨
      ∃ p ∈ keyValues, replaceLine (newKeyLines keyValues) l =
        renderLine p.1 p.2 := by
  cases h : lineKey l with
  | none => exact Or.inl (replaceLine_of_lineKey_none h)
  | some k =>
    cases h2 : lookupRender (newKeyLines keyValues) k with
    | none => exact Or.inl (replaceLine_of_lookup_none h h2)
    | some r =>
      obtain ⟨p, hp, -, hr⟩ := lookupRender_mem_newKeyLines h2
      exact Or.inr ⟨p, hp, by rw [replaceLine_of_lookup_some h h2, hr]⟩

theorem mem_keptLines {bls : List (List Char)} {l : List Char}
    (h : l ∈ keptLines bls) :
    l ∈ bls ∧ trim l ≠ [] ∧ trim l ≠ "---".data := by
  rw [keptLines] at h
  obtain ⟨h1, h2⟩ := List.mem_filter.mp h
  rw [decide_eq_true_iff, not_or] at h2
  exact ⟨h1, h2⟩

/-- Fixed-point lemma: a well-formed block whose lines are untouched by
replacement and already carry every upserted key is left unchanged by
`upsertFrontmatterKeys`. -/
theorem upsert_fixed {bls : List (List Char)} (rest : List Char)
    (keyValues : List (List Char × FMVal))
    (hnl : ∀ l ∈ bls, '\n' ∉ l)
    (htd : findTD (joinNl bls ++ ['-', '-']) = none)
    (hblank : ∀ l ∈ bls, trim l ≠ [] ∧ trim l ≠ "---".data)
    (hfix : ∀ l ∈ bls, replaceLine (newKeyLines keyValues) l = l)
    (hkeys2 : ∀ p ∈ newKeyLines keyValues, ∃ l ∈ bls, lineKey l = some p.1)
    (hbne : bls ≠ []) :
    upsertFrontmatterKeys ("---\n".data ++ joinNl bls ++ "---\n".data ++ rest)
        keyValues =
      "---\n".data ++ joinNl bls ++ "---\n".data ++ rest := by
  have hkept : keptLines bls = bls := by
    rw [keptLines, List.filter_eq_self]
    intro l hl
    rw [decide_eq_true_iff]
    exact not_or.mpr (hblank l hl)
  have happ : ((newKeyLines keyValues).filter fun p =>
      !(bls.any fun l => decide (lineKey l = some p.1))) = [] := by
    rw [List.filter_eq_nil_iff]
    intro p hp
    obtain ⟨l, hl, hkey⟩ := hkeys2 p hp
    have hany : (bls.any fun l => decide (lineKey l = some p.1)) = true :=
      List.any_eq_true.mpr ⟨l, hl, by simp [hkey]⟩
    simp [hany]
  have hub : upsertBlockLines keyValues bls = bls := by
    rw [upsertBlockLines, hkept, List.map_congr_left hfix, happ]
    simp
  rw [upsert_block rest _ hnl htd, hub,
    if_pos (by simpa [List.length_pos] using hbne)]
  simp only [List.append_assoc]
  rw [show ("\n---\n".data ++ rest) = '\n' :: ("---\n".data ++ rest) from rfl,
    joinSep_nl_append _ hbne]

theorem blockform_of_joinSep {L : List (List Char)} (rest : List Char)
    (h : L ≠ []) :
    "---\n".data ++ joinSep "\n".data L ++ "\n---\n".data ++ rest =
      "---\n".data ++ joinNl L ++ "---\n".data ++ rest := by
  simp only [List.append_assoc]
  rw [show ("\n---\n".data ++ rest) = '\n' :: ("---\n".data ++ rest) from rfl,
    joinSep_nl_append _ h]

theorem upsert_empty_blank (rest : List Char) :
    upsertFrontmatterKeys ("---\n".data ++ joinNl [[]] ++ "---\n".data ++ rest)
        ([] : List (List Char × FMVal)) =
      "---\n".data ++ joinNl [[]] ++ "---\n".data ++ rest := by
  rw [upsert_block rest [] (by simp) (by decide)]
  have hub : upsertBlockLines [] [[]] = [] := by decide
  rw [hub]
  simp [newKeyLines, joinSep]
  rfl

theorem upsert_renders_fixed (rest : List Char)
    (keyValues : List (List Char × FMVal))
    (hkeys : ∀ p ∈ keyValues, p.1 ≠ [] ∧ ∀ c ∈ p.1, isKeyChar c = true)
    (hnodup : (keyValues.map (·.1)).Nodup)
    (hrender : ∀ p ∈ keyValues, '\n' ∉ renderLine p.1 p.2 ∧
      findTD (renderLine p.1 p.2) = none)
    (hne : keyValues ≠ []) :
    upsertFrontmatterKeys
        ("---\n".data ++ joinNl ((newKeyLines keyValues).map (·.2)) ++
          "---\n".data ++ rest) keyValues =
      "---\n".data ++ joinNl ((newKeyLines keyValues).map (·.2)) ++
        "---\n".data ++ rest := by
  have hmemRL : ∀ r ∈ (newKeyLines keyValues).map (·.2),
      ∃ p ∈ keyValues, r = renderLine p.1 p.2 := by
    intro r hr
    obtain ⟨q, hq, hq2⟩ := List.mem_map.mp hr
    obtain ⟨p, hp, hqp⟩ := List.mem_map.mp hq
    exact ⟨p, hp, by rw [← hq2, ← hqp]⟩
  apply upsert_fixed
  · intro l hl
    obtain ⟨p, hp, he⟩ := hmemRL l hl
    exact he ▸ (hrender p hp).1
  · apply findTD_joinNl_none
    intro l hl
    obtain ⟨p, hp, he⟩ := hmemRL l hl
    exact he ▸ (hrender p hp).2
  · intro l hl
    obtain ⟨p, hp, he⟩ := hmemRL l hl
    exact he ▸ ⟨trim_renderLine_ne_nil p.2 (hkeys p hp).1 (hkeys p hp).2,
      trim_ne_td (hrender p hp).2⟩
  · intro l hl
    obtain ⟨p, hp, he⟩ := hmemRL l hl
    exact he ▸ replaceLine_renderLine_self hp hkeys hnodup
  · intro q hq
    obtain ⟨p, hp, hqp⟩ := List.mem_map.mp hq
    subst hqp
    exact ⟨renderLine p.1 p.2,
      List.mem_map.mpr ⟨(p.1, renderLine p.1 p.2),
        by rw [newKeyLines]; exact List.mem_map_of_mem _ hp, rfl⟩,
      lineKey_renderLine p.2 (hkeys p hp).1 (hkeys p hp).2⟩
  · intro h0
    rw [List.map_eq_nil_iff, newKeyLines, List.map_eq_nil_iff] at h0
    exact hne h0

/-! ## Claim C4: idempotence of the upsert -/

/-- C4 falsified as stated: a key that does not re-parse under the key
pattern (here it contains a space) is appended again by the second
application, so applying the upsert twice differs from applying it once. -/
theorem claim_C4_counterexample :
    upsertFrontmatterKeys "Body".data [("my key".data, FMVal.str "v".data)] =
      "---\nmy key: v\n---\nBody".data ∧
    upsertFrontmatterKeys
        (upsertFrontmatterKeys "Body".data [("my key".data, FMVal.str "v".data)])
        [("my key".data, FMVal.str "v".data)] =
      "---\nmy key: v\nmy key: v\n---\nBody".data ∧
    upsertFrontmatterKeys
        (upsertFrontmatterKeys "Body".data [("my key".data, FMVal.str "v".data)])
        [("my key".data, FMVal.str "v".data)] ≠
      upsertFrontmatterKeys "Body".data [("my key".data, FMVal.str "v".data)] :=
  ⟨by decide, by decide, by decide⟩

/-- C4 (amended): the upsert is idempotent for a fixed mapping provided the
mapping is well-formed (each key a non-empty run of key characters, keys
pairwise distinct, each rendered line free of newlines and of `---`) and the
content either has no frontmatter block or begins with a well-formed block
of newline-terminated, `---`-free lines. -/
theorem claim_C4_upsert_idempotent (content : List Char)
    (keyValues : List (List Char × FMVal))
    (hkeys : ∀ p ∈ keyValues, p.1 ≠ [] ∧ ∀ c ∈ p.1, isKeyChar c = true)
    (hnodup : (keyValues.map (·.1)).Nodup)
    (hrender : ∀ p ∈ keyValues, '\n' ∉ renderLine p.1 p.2 ∧
      findTD (renderLine p.1 p.2) = none)
    (hcontent : fmMatch content = none ∨
      ∃ bls rest, content = "---\n".data ++ joinNl bls ++ "---\n".data ++ rest ∧
        (∀ l ∈ bls, '\n' ∉ l) ∧ findTD (joinNl bls ++ ['-', '-']) = none) :
    upsertFrontmatterKeys (upsertFrontmatterKeys content keyValues) keyValues =
      upsertFrontmatterKeys content keyValues := by
  rcases hcontent with hnone | ⟨bls, rest, hc, hnlB, htdB⟩
  · have hout1 : upsertFrontmatterKeys content keyValues =
        "---\n".data ++ joinSep "\n".data ((newKeyLines keyValues).map (·.2)) ++
          "\n---\n".data ++ content := by
      rw [upsertFrontmatterKeys, hnone]
    by_cases hne : keyValues = []
    · subst hne
      rw [hout1]
      show upsertFrontmatterKeys
        ("---\n".data ++ joinNl [[]] ++ "---\n".data ++ content) [] = _
      rw [upsert_empty_blank content]
      rfl
    · have hRLne : ((newKeyLines keyValues).map (·.2)) ≠ [] := by
        simp [newKeyLines, hne]
      rw [hout1, blockform_of_joinSep content hRLne]
      exact upsert_renders_fixed content keyValues hkeys hnodup hrender hne
  · subst hc
    rw [upsert_block rest keyValues hnlB htdB]
    by_cases hylne : upsertBlockLines keyValues bls = []
    · have hkvs : keyValues = [] := by
        rw [upsertBlockLines] at hylne
        obtain ⟨h1, h2⟩ := List.append_eq_nil.mp hylne
        have hkept0 : keptLines bls = [] := List.map_eq_nil_iff.mp h1
        rw [hkept0] at h2
        simp only [List.any_nil, Bool.not_false, List.filter_true,
          List.map_eq_nil_iff, newKeyLines] at h2
        exact h2
      subst hkvs
      rw [if_neg (by simp [hylne])]
      show upsertFrontmatterKeys
        ("---\n".data ++ joinNl [[]] ++ "---\n".data ++ rest) [] = _
      rw [upsert_empty_blank rest]
      rfl
    · rw [if_pos (by simpa [List.length_pos] using hylne),
        blockform_of_joinSep rest hylne]
      have hmemY : ∀ l ∈ upsertBlockLines keyValues bls,
          (l ∈ bls ∧ trim l ≠ [] ∧ trim l ≠ "---".data ∧
            replaceLine (newKeyLines keyValues) l = l) ∨
          ∃ p ∈ keyValues, l = renderLine p.1 p.2 := by
        intro l hl
        rw [upsertBlockLines] at hl
        rcases List.mem_append.mp hl with h | h
        · obtain ⟨l0, hl0, hrepl⟩ := List.mem_map.mp h
          rcases @replaceLine_shape keyValues l0 with
            hcase | ⟨p, hp, hcase⟩
          · left
            have he : l = l0 := by rw [← hrepl, hcase]
            obtain ⟨hm, h3, h4⟩ := mem_keptLines hl0
            exact ⟨he ▸ hm, he ▸ h3, he ▸ h4, by rw [he, hcase]⟩
          · right
            exact ⟨p, hp, by rw [← hrepl, hcase]⟩
        · obtain ⟨q, hq, hq2⟩ := List.mem_map.mp h
          have hq3 : q ∈ newKeyLines keyValues := (List.mem_filter.mp hq).1
          obtain ⟨p, hp, hqp⟩ := List.mem_map.mp hq3
          right
          exact ⟨p, hp, by rw [← hq2, ← hqp]⟩
      have hnlY : ∀ l ∈ upsertBlockLines keyValues bls, '\n' ∉ l := by
        intro l hl
        rcases hmemY l hl with ⟨hm, -, -, -⟩ | ⟨p, hp, he⟩
        · exact hnlB l hm
        · exact he ▸ (hrender p hp).1
      have hfdY : ∀ l ∈ upsertBlockLines keyValues bls, findTD l = none := by
        intro l hl
        rcases hmemY l hl with ⟨hm, -, -, -⟩ | ⟨p, hp, he⟩
        · exact findTD_none_of_mem_joinNl htdB hm
        · exact he ▸ (hrender p hp).2
      apply upsert_fixed rest keyValues hnlY (findTD_joinNl_none hfdY)
      · intro l hl
        rcases hmemY l hl with ⟨-, h3, h4, -⟩ | ⟨p, hp, he⟩
        · exact ⟨h3, h4⟩
        · exact he ▸ ⟨trim_renderLine_ne_nil p.2 (hkeys p hp).1 (hkeys p hp).2,
            trim_ne_td (hrender p hp).2⟩
      · intro l hl
        rcases hmemY l hl with ⟨-, -, -, hfix⟩ | ⟨p, hp, he⟩
        · exact hfix
        · exact he ▸ replaceLine_renderLine_self hp hkeys hnodup
      · intro q hq
        obtain ⟨p, hp, hqp⟩ := List.mem_map.mp hq
        subst hqp
        by_cases hany : ((keptLines bls).any
            fun l => decide (lineKey l = some p.1)) = true
        · obtain ⟨l0, hl0, hdec⟩ := List.any_eq_true.mp hany
          have hkey0 : lineKey l0 = some p.1 := of_decide_eq_true hdec
          obtain ⟨r, hr⟩ := lookupRender_isSome_of_mem hp
          have hrepl : replaceLine (newKeyLines keyValues) l0 = r :=
            replaceLine_of_lookup_some hkey0 hr
          obtain ⟨p', hp', hpk, hrr⟩ := lookupRender_mem_newKeyLines hr
          refine ⟨replaceLine (newKeyLines keyValues) l0, ?_, ?_⟩
          · rw [upsertBlockLines]
            exact List.mem_append_left _
              (List.mem_map_of_mem (replaceLine (newKeyLines keyValues)) hl0)
          · rw [hrepl, hrr,
              lineKey_renderLine p'.2 (hkeys p' hp').1 (hkeys p' hp').2, hpk]
        · have hfq : (p.1, renderLine p.1 p.2) ∈
              (newKeyLines keyValues).filter fun q =>
                !((keptLines bls).any fun l => decide (lineKey l = some q.1)) := by
            refine List.mem_filter.mpr ⟨hq, ?_⟩
            rw [Bool.not_eq_true] at hany
            simp [hany]
          refine ⟨renderLine p.1 p.2, ?_,
            lineKey_renderLine p.2 (hkeys p hp).1 (hkeys p hp).2⟩
          rw [upsertBlockLines]
          exact List.mem_append_right _ (List.mem_map_of_mem (·.2) hfq)
      · exact hylne

/-- Witness for C4 (amended): the concrete content
`---\ntags: old\n\nnote: keep\n---\nBody` (its block written as two
newline-terminated lines with a blank line) upserted twice with
`{tags: [x, y]}`. -/
theorem claim_C4_upsert_idempotent_witness :
    upsertFrontmatterKeys
        (upsertFrontmatterKeys "---\ntags: old\n\nnote: keep\n---\nBody".data
          [("tags".data, FMVal.arr ["x".data, "y".data])])
        [("tags".data, FMVal.arr ["x".data, "y".data])] =
      upsertFrontmatterKeys "---\ntags: old\n\nnote: keep\n---\nBody".data
        [("tags".data, FMVal.arr ["x".data, "y".data])] :=
  claim_C4_upsert_idempotent _ _ (by decide) (by decide) (by decide)
    (Or.inr ⟨["tags: old".data, [], "note: keep".data], "Body".data,
      by decide, by decide, by decide⟩)

/-! ## Claim C1: the similarity formula -/

theorem toLower_eq_slash {c : Char} (h : Char.toLower c = '/') : c = '/' := by
  by_cases hr : c.toNat ≥ 65 ∧ c.toNat ≤ 90
  · exfalso
    have h2 : Char.ofNat (c.toNat + 32) = '/' := by
      rw [Char.toLower] at h
      simpa [hr] using h
    have hval : (c.toNat + 32).isValidChar := Or.inl (by omega)
    have hv : (Char.ofNat (c.toNat + 32)).toNat = c.toNat + 32 := by
      rw [Char.ofNat, dif_pos hval]
      simp [Char.ofNatAux, Char.toNat, UInt32.toNat]
    rw [h2] at hv
    have h47 : ('/' : Char).toNat = 47 := by decide
    omega
  · rw [Char.toLower] at h
    simpa [hr] using h

theorem toLower_slash_iff (c : Char) : Char.toLower c = '/' ↔ c = '/' :=
  ⟨toLower_eq_slash, fun h => by subst h; decide⟩

theorem ite_underscore_slash (c : Char) :
    ((if c = '_' then '-' else c) = '/') ↔ c = '/' := by
  by_cases hc : c = '_'
  · subst hc; decide
  · rw [if_neg hc]

theorem splitCh_normalize (s : List Char) :
    splitCh '/' (normalize s) = segsNormalized s := by
  rw [normalize, segsNormalized, splitCh_map toLower_slash_iff,
    splitCh_map ite_underscore_slash, List.map_map]
  exact List.map_congr_left fun x _ => rfl

theorem leadMatch_eq_countLeadingMatches :
    ∀ A B : List (List Char), leadMatch A B = countLeadingMatches A B := by
  intro A
  induction A with
  | nil => intro B; cases B <;> rfl
  | cons x xs ih =>
    intro B
    cases B with
    | nil => rfl
    | cons y ys =>
      by_cases he : x = y
      · have h1 : leadMatch (x :: xs) (y :: ys) = leadMatch xs ys + 1 := by
          simp [leadMatch, he]
        have h2 : countLeadingMatches (x :: xs) (y :: ys) =
            countLeadingMatches xs ys + 1 := by
          simp [countLeadingMatches, List.zip_cons_cons, List.takeWhile_cons, he]
        rw [h1, h2, ih ys]
      · have h1 : leadMatch (x :: xs) (y :: ys) = 0 := by
          simp [leadMatch, he]
        have h2 : countLeadingMatches (x :: xs) (y :: ys) = 0 := by
          simp [countLeadingMatches, List.zip_cons_cons, List.takeWhile_cons, he]
        rw [h1, h2]

/-- C1: for every candidate and suggestion path, the similarity score equals
2 × (count of leading segments matching exactly after per-segment
normalisation — underscores to dashes, lowercased — stopping at the first
mismatch) minus the absolute difference of the segment counts. -/
theorem claim_C1_similarity_formula (a b : List Char) :
    similarity a b =
      2 * (countLeadingMatches (segsNormalized a) (segsNormalized b) : Int) -
        ((((segsNormalized a).length : Int) -
          ((segsNormalized b).length : Int)).natAbs : Int) := by
  rw [similarity]
  simp only [splitCh_normalize]
  rw [leadMatch_eq_countLeadingMatches, Int.mul_comm]

/-! ## Claim C5: ranking scenario and rank properties -/

/-- C5 falsified as stated: the code's scores for the scenario are 3 and 1,
not 4 and 2 (`2*2 − |2−3| = 3` and `2*1 − |2−3| = 1`). -/
theorem claim_C5_counterexample :
    similarity "proj/notes".data "proj/notes/archive".data = 3 ∧
    (3 : Int) ≠ 4 ∧
    similarity "proj/ideas".data "proj/notes/archive".data = 1 ∧
    (1 : Int) ≠ 2 :=
  ⟨by decide, by decide, by decide, by decide⟩

/-- C5 (amended): ranking the scenario folders against
`proj/notes/archive` returns `proj/notes` with score 3 ahead of
`proj/ideas` with score 1 and excludes `personal/journal` (score −1 ≤ 0);
in general only candidates with score > 0 are returned, sorted descending
by score, truncated to the top 3, and the sort is stable (sorting with ties
broken by list position yields the same output). -/
theorem claim_C5_rank_scenario :
    topMatches ["proj/notes".data, "proj/ideas".data, "personal/journal".data]
        "proj/notes/archive".data =
      [("proj/notes".data, 3), ("proj/ideas".data, 1)] ∧
    (∀ (folders : List (List Char)) (aiPath : List Char),
      ∀ x ∈ topMatches folders aiPath, 0 < x.2) ∧
    (∀ (folders : List (List Char)) (aiPath : List Char),
      (topMatches folders aiPath).length ≤ 3) ∧
    (∀ (folders : List (List Char)) (aiPath : List Char),
      (topMatches folders aiPath).Pairwise fun x y => y.2 ≤ x.2) ∧
    (∀ (folders : List (List Char)) (aiPath : List Char),
      ((folders.map fun f => (f, similarity f aiPath)).enum.mergeSort
          (List.enumLE fun a b => decide (b.2 ≤ a.2))).map (·.2) =
        (folders.map fun f => (f, similarity f aiPath)).mergeSort
          fun a b => decide (b.2 ≤ a.2)) := by
  have htrans : ∀ a b c : List Char × Int,
      (decide (b.2 ≤ a.2)) → (decide (c.2 ≤ b.2)) → (decide (c.2 ≤ a.2)) := by
    intro a b c h1 h2
    simp only [decide_eq_true_iff] at *
    exact le_trans h2 h1
  have htotal : ∀ a b : List Char × Int,
      (decide (b.2 ≤ a.2)) || (decide (a.2 ≤ b.2)) := by
    intro a b
    rcases Int.le_total b.2 a.2 with h | h <;> simp [h]
  refine ⟨?_, ?_, ?_, ?_, fun folders aiPath => List.mergeSort_enum⟩
  · show ((((["proj/notes".data, "proj/ideas".data,
        "personal/journal".data]).map fun f =>
          (f, similarity f "proj/notes/archive".data)).mergeSort
        fun a b => decide (b.2 ≤ a.2)).filter fun f => decide (0 < f.2)).take 3 = _
    rw [show ((["proj/notes".data, "proj/ideas".data,
        "personal/journal".data]).map fun f =>
          (f, similarity f "proj/notes/archive".data)) =
        [("proj/notes".data, 3), ("proj/ideas".data, 1),
          ("personal/journal".data, -1)] from by decide]
    rw [List.mergeSort_of_sorted (by decide)]
    decide
  · intro folders aiPath x hx
    have h1 := List.mem_of_mem_take hx
    exact of_decide_eq_true (List.mem_filter.mp h1).2
  · intro folders aiPath
    exact List.length_take_le 3 _
  · intro folders aiPath
    have hs := List.sorted_mergeSort htrans htotal
      (folders.map fun f => (f, similarity f aiPath))
    have h1 : (topMatches folders aiPath).Pairwise
        fun x y : List Char × Int => decide (y.2 ≤ x.2) :=
      List.Pairwise.sublist
        ((List.take_sublist 3 _).trans (List.filter_sublist _)) hs
    exact h1.imp fun h => of_decide_eq_true h

/-- Witness for C5: the top-ranked scenario entry is a member of the
returned matches, and its score is positive. -/
theorem claim_C5_rank_scenario_witness :
    ("proj/notes".data, (3 : Int)) ∈
      topMatches ["proj/notes".data, "proj/ideas".data,
        "personal/journal".data] "proj/notes/archive".data ∧
    (0 : Int) < 3 := by
  have hmem : ("proj/notes".data, (3 : Int)) ∈
      topMatches ["proj/notes".data, "proj/ideas".data,
        "personal/journal".data] "proj/notes/archive".data := by
    rw [claim_C5_rank_scenario.1]
    decide
  exact ⟨hmem, claim_C5_rank_scenario.2.1 _ _ _ hmem⟩

/-! ## Claim C9: shape of the normalised relative path -/

/-- C9 falsified as stated: `generateRelPath` does not lowercase the AI
suggestion — on input `My_Notes/Stuff` the output `My-Notes/Stuff` keeps
the uppercase letters, so the segments are not lowercase. -/
theorem claim_C9_counterexample :
    generateRelPathNorm "My_Notes/Stuff".data = "My-Notes/Stuff".data ∧
    ((generateRelPathNorm "My_Notes/Stuff".data).any Char.isUpper) = true :=
  ⟨by decide, by decide⟩

/-- C9 (amended): for every AI suggestion, the normalised relative path is a
sequence of at most 3 dash-normalised segments: splitting it at the
separator yields at most 3 segments, none containing an underscore and none
containing the path separator.  (The code does not lowercase; uppercase
letters survive.) -/
theorem claim_C9_relpath_shape (aiResp : List Char) :
    (splitCh '/' (generateRelPathNorm aiResp)).length ≤ 3 ∧
    ∀ seg ∈ splitCh '/' (generateRelPathNorm aiResp), '_' ∉ seg ∧ '/' ∉ seg := by
  have hsegs : splitCh '/' (generateRelPathNorm aiResp) =
      ((splitCh '/' (trim aiResp)).take 3).map
        (List.map fun c => if c = '_' then '-' else c) := by
    rw [generateRelPathNorm]
    apply splitCh_joinSep
    · have h0 := splitCh_ne_nil '/' (trim aiResp)
      cases h : splitCh '/' (trim aiResp) with
      | nil => exact absurd h h0
      | cons a t => simp [h]
    · intro p hp
      obtain ⟨q, hq, hqp⟩ := List.mem_map.mp hp
      have hq' : '/' ∉ q :=
        not_mem_of_mem_splitCh (List.mem_of_mem_take hq)
      intro hmem
      rw [← hqp] at hmem
      obtain ⟨c, hc, he⟩ := List.mem_map.mp hmem
      exact hq' ((ite_underscore_slash c).mp he ▸ hc)
  constructor
  · rw [hsegs, List.length_map]
    exact List.length_take_le 3 _
  · intro seg hseg
    rw [hsegs] at hseg
    obtain ⟨q, hq, hqp⟩ := List.mem_map.mp hseg
    constructor
    · intro hmem
      rw [← hqp] at hmem
      obtain ⟨c, -, he⟩ := List.mem_map.mp hmem
      by_cases hc : c = '_'
      · rw [if_pos hc] at he
        exact absurd he (by decide)
      · rw [if_neg hc] at he
        exact hc he
    · intro hmem
      rw [← hqp] at hmem
      obtain ⟨c, hc, he⟩ := List.mem_map.mp hmem
      exact not_mem_of_mem_splitCh (List.mem_of_mem_take hq)
        ((ite_underscore_slash c).mp he ▸ hc)

/-! ## Claim C10: sanitised slugs and the slug fallback -/

/-- C10: for every input, `sanitizeSlug` returns only characters from
`[a-z0-9-]`, with no leading dash, no trailing dash, and no two consecutive
dashes; and `generateSlug` never yields an empty name, falling back to
`"note"`. -/
theorem claim_C10_sanitizeSlug_shape :
    (∀ input : List Char,
      (∀ c ∈ sanitizeSlug input, isSlugChar c = true) ∧
      (sanitizeSlug input).head? ≠ some '-' ∧
      (sanitizeSlug input).getLast? ≠ some '-' ∧
      (sanitizeSlug input).Chain' fun a b => ¬(a = '-' ∧ b = '-')) ∧
    (∀ raw : List Char, generateSlug raw ≠ []) ∧
    (∀ raw : List Char, sanitizeSlug (trim raw) = [] →
      generateSlug raw = "note".data) := by
  refine ⟨fun input => ⟨?_, ?_, ?_, ?_⟩, fun raw => ?_, fun raw h => ?_⟩
  · intro c hc
    exact mem_replaceDisallowedRuns
      (mem_stripEdgeDashes (mem_collapseDashes hc))
  · rw [sanitizeSlug]
    apply collapseDashes_head?_ne
    intro h
    exact stripEdgeDashes_head? h rfl
  · rw [sanitizeSlug]
    cases h : (stripEdgeDashes
        (replaceDisallowedRuns false (input.map Char.toLower))).getLast? with
    | none =>
      have : stripEdgeDashes (replaceDisallowedRuns false
          (input.map Char.toLower)) = [] := by
        cases hx : stripEdgeDashes (replaceDisallowedRuns false
            (input.map Char.toLower)) with
        | nil => rfl
        | cons a t => rw [hx] at h; simp [List.getLast?] at h
      rw [this]
      simp [collapseDashes]
    | some c =>
      have hc : c ≠ '-' := stripEdgeDashes_getLast? h
      rw [collapseDashes_getLast? hc h false]
      simpa using hc
  · exact collapseDashes_chain' false _
  · rw [generateSlug]
    split
    · decide
    · rename_i hne
      exact hne
  · rw [generateSlug, if_pos h]

/-! ## Claim C8: the folder scanner -/

theorem foldl_append_flatMap {α β : Type} (h : α → List β) (l : List α) :
    ∀ acc : List β, l.foldl (fun r e => r ++ h e) acc = acc ++ l.flatMap h := by
  induction l with
  | nil => intro acc; simp
  | cons e t ih =>
    intro acc
    rw [List.foldl_cons, ih, List.flatMap_cons, List.append_assoc]

/-- C8: calling the scanner with depth 0 returns the empty sequence; one
level of scanning splits into per-child subtrees (so a read failure for one
sub-path yields no entries for that subtree while every other subtree's
entries are still returned); and a subtree whose directory read fails
contributes nothing. -/
theorem claim_C8_scanner_depth_and_failure :
    (∀ (fs : FsT) (root pre : FsPath), getAllFolders fs root 0 pre = []) ∧
    (∀ (fs : FsT) (root : FsPath) (d : Nat) (pre : FsPath),
      getAllFolders fs root (d + 1) pre =
        match readdirT fs (root ++ pre) with
        | none => []
        | some entries =>
          entries.flatMap fun e =>
            if e.2 then (pre ++ [e.1]) :: getAllFolders fs root d (pre ++ [e.1])
            else []) ∧
    (∀ (fs : FsT) (root : FsPath) (d : Nat) (pre : FsPath) (c : String),
      readdirT fs (root ++ (pre ++ [c])) = none →
      getAllFolders fs root d (pre ++ [c]) = []) := by
  have hstep : ∀ (fs : FsT) (root : FsPath) (d : Nat) (pre : FsPath),
      getAllFolders fs root (d + 1) pre =
        match readdirT fs (root ++ pre) with
        | none => []
        | some entries =>
          entries.flatMap fun e =>
            if e.2 then (pre ++ [e.1]) :: getAllFolders fs root d (pre ++ [e.1])
            else [] := by
    intro fs root d pre
    rw [getAllFolders]
    cases h : readdirT fs (root ++ pre) with
    | none => rfl
    | some entries =>
      show entries.foldl _ [] = _
      have hthen : (fun (result : List FsPath) (e : String × Bool) =>
          if e.2 = true then
            result ++ [pre ++ [e.1]] ++ getAllFolders fs root d (pre ++ [e.1])
          else result) = fun result e => result ++
            (if e.2 = true then
              (pre ++ [e.1]) :: getAllFolders fs root d (pre ++ [e.1])
            else []) := by
        funext result e
        by_cases he : e.2 = true
        · simp [he]
        · simp [he]
      rw [hthen, foldl_append_flatMap]
      simp
  refine ⟨fun fs root pre => rfl, hstep, fun fs root d pre c h => ?_⟩
  cases d with
  | zero => rfl
  | succ d => rw [hstep, h]

/-- Witness for C8: a missing sub-directory contributes no entries. -/
theorem claim_C8_scanner_witness :
    readdirT [([ "r" ], [("a", true)])] (["r"] ++ ([] ++ ["b"])) = none ∧
    getAllFolders [([ "r" ], [("a", true)])] ["r"] 2 ([] ++ ["b"]) = [] :=
  ⟨by decide, claim_C8_scanner_depth_and_failure.2.2 _ _ 2 [] "b" (by decide)⟩

/-! ## Claims C6 and C7: the directory pruner -/

theorem readdir_filter_ne {fs : Fs} {p q : FsPath} :
    readdir (fs.filter fun e => decide (e.1 ≠ p)) q =
      if q = p then none else readdir fs q := by
  induction fs with
  | nil => simp [readdir]
  | cons e t ih =>
    rw [List.filter_cons]
    by_cases hep : e.1 = p
    · rw [if_neg (by simp [hep])]
      rw [ih]
      by_cases hq : q = p
      · simp [hq]
      · rw [if_neg hq, if_neg hq, readdir, if_neg (by rw [hep]; exact fun h => hq h.symm)]
    · rw [if_pos (by simp [hep])]
      by_cases heq : e.1 = q
      · have hq : ¬q = p := fun h => hep (h ▸ heq)
        rw [readdir, if_pos heq, if_neg hq, readdir, if_pos heq]
      · rw [readdir, if_neg heq, ih, readdir, if_neg heq]

theorem readdir_map_adjust {fs : Fs} {t : FsPath} {name : String}
    {q : FsPath} :
    readdir (fs.map fun e => if e.1 = t then (e.1, e.2.erase name) else e) q =
      (readdir fs q).map fun es => if q = t then es.erase name else es := by
  induction fs with
  | nil => simp [readdir]
  | cons e rest ih =>
    rw [List.map_cons, readdir, readdir]
    by_cases heq : e.1 = q
    · have h1 : (if e.1 = t then (e.1, e.2.erase name) else e).1 = e.1 := by
        by_cases het : e.1 = t <;> simp [het]
      rw [if_pos (h1.trans heq), if_pos heq]
      by_cases het : e.1 = t
      · rw [if_pos het]
        have hqt : q = t := heq ▸ het
        simp [hqt]
      · rw [if_neg het]
        have hqt : ¬q = t := fun h => het (heq ▸ h)
        simp [hqt]

    · have h1 : (if e.1 = t then (e.1, e.2.erase name) else e).1 = e.1 := by
        by_cases het : e.1 = t <;> simp [het]
      rw [if_neg (fun h => heq (h1 ▸ h)), if_neg heq, ih]

theorem readdir_rmdir_self {fs : Fs} {p : FsPath} :
    readdir (rmdir fs p) p = none := by
  cases h : p.getLast? with
  | none =>
    rw [rmdir]
    simp only [h]
    rw [readdir_filter_ne, if_pos rfl]
  | some name =>
    rw [rmdir]
    simp only [h]
    rw [readdir_map_adjust, readdir_filter_ne, if_pos rfl]
    rfl

theorem readdir_rmdir_ne {fs : Fs} {p q : FsPath} (hq : q ≠ p) :
    readdir (rmdir fs p) q =
      (readdir fs q).map fun es =>
        match p.getLast? with
        | none => es
        | some name => if q = p.dropLast then es.erase name else es := by
  cases h : p.getLast? with
  | none =>
    rw [rmdir]
    simp only [h]
    rw [readdir_filter_ne, if_neg hq]
    cases readdir fs q <;> rfl
  | some name =>
    rw [rmdir]
    simp only [h]
    rw [readdir_map_adjust, readdir_filter_ne, if_neg hq]

theorem dropLast_append_of_getLast? {p : FsPath} {name : String}
    (h : p.getLast? = some name) : p.dropLast ++ [name] = p := by
  induction p with
  | nil => simp at h
  | cons a t ih =>
    cases t with
    | nil =>
      simp only [List.getLast?_singleton, Option.some.injEq] at h
      simp [h]
    | cons b t' =>
      rw [List.getLast?_cons_cons] at h
      rw [List.dropLast_cons₂, List.cons_append, ih h]

theorem removeEmptyDirsGo_spec (ws : FsPath) :
    ∀ (fuel : Nat) (fs : Fs) (curr : FsPath),
      ws ∉ (removeEmptyDirsGo ws fuel fs curr).1 ∧
      ∀ d ∈ (removeEmptyDirsGo ws fuel fs curr).1,
        ∃ es, readdir fs d = some es ∧
          ∀ n ∈ es, d ++ [n] ∈ (removeEmptyDirsGo ws fuel fs curr).1 := by
  intro fuel
  induction fuel with
  | zero => intro fs curr; simp [removeEmptyDirsGo]
  | succ fuel ih =>
    intro fs curr
    by_cases hw : curr = ws
    · simp [removeEmptyDirsGo, hw]
    · cases hr : readdir fs curr with
      | none => simp [removeEmptyDirsGo, hw, hr]
      | some entries =>
        by_cases hemp : entries = []
        · subst hemp
          have hgo : removeEmptyDirsGo ws (fuel + 1) fs curr =
              (curr ::
                (removeEmptyDirsGo ws fuel (rmdir fs curr) curr.dropLast).1,
               (removeEmptyDirsGo ws fuel (rmdir fs curr) curr.dropLast).2.1,
               (removeEmptyDirsGo ws fuel (rmdir fs curr) curr.dropLast).2.2) := by
            simp [removeEmptyDirsGo, hw, hr]
          rw [hgo]
          obtain ⟨ihA, ihB⟩ := ih (rmdir fs curr) curr.dropLast
          constructor
          · intro hmem
            rcases List.mem_cons.mp hmem with h | h
            · exact hw h.symm
            · exact ihA h
          · intro d hd
            rcases List.mem_cons.mp hd with hdc | hdr
            · subst hdc
              exact ⟨[], hr, by simp⟩
            · obtain ⟨es', hes', hchild⟩ := ihB d hdr
              have hdne : d ≠ curr := by
                intro he
                rw [he, readdir_rmdir_self] at hes'
                exact Option.noConfusion hes'
              rw [readdir_rmdir_ne hdne] at hes'
              cases hfs : readdir fs d with
              | none => rw [hfs] at hes'; exact Option.noConfusion hes'
              | some es =>
                rw [hfs] at hes'
                simp only [Option.map_some', Option.some.injEq] at hes'
                refine ⟨es, rfl, ?_⟩
                intro n hn
                cases hlast : curr.getLast? with
                | none =>
                  simp only [hlast] at hes'
                  exact List.mem_cons_of_mem _ (hchild n (hes' ▸ hn))
                | some name =>
                  simp only [hlast] at hes'
                  by_cases hdp : d = curr.dropLast
                  · rw [if_pos hdp] at hes'
                    by_cases hne : n = name
                    · subst hne
                      have : d ++ [n] = curr := by
                        rw [hdp]
                        exact dropLast_append_of_getLast? hlast
                      rw [this]
                      exact List.mem_cons_self _ _
                    · have hmem2 : n ∈ es.erase name :=
                        (List.mem_erase_of_ne hne).mpr hn
                      exact List.mem_cons_of_mem _ (hchild n (hes' ▸ hmem2))
                  · rw [if_neg hdp] at hes'
                    exact List.mem_cons_of_mem _ (hchild n (hes' ▸ hn))
        · simp [removeEmptyDirsGo, hw, hr, hemp]

/-- C6: the pruner never deletes the workspace boundary, and it only ever
deletes directories that were empty when visited — every deleted
directory's original listing consists only of entries that were themselves
deleted as its chain child; in particular, when the starting directory is
empty and its parent is the non-empty boundary, exactly one directory is
deleted, the walk completes, and the boundary survives with that entry
removed. -/
theorem claim_C6_prune_invariants :
    (∀ (fs : Fs) (ws dir : FsPath),
      ws ∉ (removeEmptyDirsRecursively fs ws dir).1) ∧
    (∀ (fs : Fs) (ws dir : FsPath),
      ∀ d ∈ (removeEmptyDirsRecursively fs ws dir).1,
        ∃ es, readdir fs d = some es ∧
          ∀ n ∈ es, d ++ [n] ∈ (removeEmptyDirsRecursively fs ws dir).1) ∧
    (∀ (fs : Fs) (ws : FsPath) (name : String) (es : List String),
      readdir fs (ws ++ [name]) = some [] → readdir fs ws = some es →
      es ≠ [] →
      (removeEmptyDirsRecursively fs ws (ws ++ [name])).1 = [ws ++ [name]] ∧
      (removeEmptyDirsRecursively fs ws (ws ++ [name])).2.2 = true ∧
      readdir (removeEmptyDirsRecursively fs ws (ws ++ [name])).2.1 ws =
        some (es.erase name)) := by
  refine ⟨fun fs ws dir => (removeEmptyDirsGo_spec ws _ fs dir).1,
    fun fs ws dir => (removeEmptyDirsGo_spec ws _ fs dir).2,
    fun fs ws name es h1 h2 h3 => ?_⟩
  have hne : ws ++ [name] ≠ ws := by
    intro h
    have hlen := congrArg List.length h
    simp at hlen
  have hout : removeEmptyDirsRecursively fs ws (ws ++ [name]) =
      ([ws ++ [name]], rmdir fs (ws ++ [name]), true) := by
    rw [removeEmptyDirsRecursively,
      show (ws ++ [name]).length + 2 = ((ws ++ [name]).length + 1) + 1 from rfl]
    simp [removeEmptyDirsGo, hne, h1, List.dropLast_concat]
  refine ⟨by rw [hout], by rw [hout], ?_⟩
  rw [hout]
  show readdir (rmdir fs (ws ++ [name])) ws = some (es.erase name)
  rw [readdir_rmdir_ne fun h => hne h.symm, h2]
  simp [List.getLast?_concat, List.dropLast_concat]

/-- Witness for C6: the scenario with workspace `w` containing only the
empty directory `d`. -/
theorem claim_C6_prune_invariants_witness :
    readdir [([ "w" ], ["d"]), (["w", "d"], [])] (["w"] ++ ["d"]) = some [] ∧
    readdir [([ "w" ], ["d"]), (["w", "d"], [])] ["w"] = some ["d"] ∧
    (["d"] : List String) ≠ [] ∧
    ((removeEmptyDirsRecursively [([ "w" ], ["d"]), (["w", "d"], [])] ["w"]
        (["w"] ++ ["d"])).1 = [["w"] ++ ["d"]] ∧
      (removeEmptyDirsRecursively [([ "w" ], ["d"]), (["w", "d"], [])] ["w"]
        (["w"] ++ ["d"])).2.2 = true ∧
      readdir (removeEmptyDirsRecursively [([ "w" ], ["d"]), (["w", "d"], [])]
          ["w"] (["w"] ++ ["d"])).2.1 ["w"] = some (["d"].erase "d")) :=
  ⟨by decide, by decide, by decide,
    claim_C6_prune_invariants.2.2 _ _ _ _ (by decide) (by decide) (by decide)⟩

/-- C7 falsified as stated: when the starting directory does not exist the
loop's `readdir` throws, so the operation does not complete without error
(the model's ok flag is false); it does delete nothing. -/
theorem claim_C7_counterexample :
    (removeEmptyDirsRecursively [([ "w" ], ["a"])] ["w"] ["w", "b"]).2.2 =
      false ∧
    (removeEmptyDirsRecursively [([ "w" ], ["a"])] ["w"] ["w", "b"]).1 = [] :=
  ⟨by decide, by decide⟩

/-- C7 (amended): when the starting directory does not exist the pruner
deletes nothing and leaves the filesystem untouched, but it propagates the
read error — it completes without error only when the starting directory
already equals the workspace boundary (the loop then never reads it). -/
theorem claim_C7_prune_missing_dir (fs : Fs) (ws dir : FsPath)
    (h : readdir fs dir = none) :
    (removeEmptyDirsRecursively fs ws dir).1 = [] ∧
    (removeEmptyDirsRecursively fs ws dir).2.1 = fs ∧
    ((removeEmptyDirsRecursively fs ws dir).2.2 = true ↔ dir = ws) := by
  rw [removeEmptyDirsRecursively,
    show dir.length + 2 = (dir.length + 1) + 1 from rfl]
  by_cases hw : dir = ws
  · simp [removeEmptyDirsGo, hw]
  · simp [removeEmptyDirsGo, hw, h]

/-- Witness for C7 (amended): a missing start directory below an existing
non-empty workspace. -/
theorem claim_C7_prune_missing_dir_witness :
    readdir [([ "w" ], ["a"])] ["w", "b"] = none ∧
    ((removeEmptyDirsRecursively [([ "w" ], ["a"])] ["w"] ["w", "b"]).1 = [] ∧
      (removeEmptyDirsRecursively [([ "w" ], ["a"])] ["w"] ["w", "b"]).2.1 =
        [([ "w" ], ["a"])] ∧
      ((removeEmptyDirsRecursively [([ "w" ], ["a"])] ["w"]
          ["w", "b"]).2.2 = true ↔ (["w", "b"] : FsPath) = ["w"])) :=
  ⟨by decide, claim_C7_prune_missing_dir _ _ _ (by decide)⟩

/-- Witness for C9 (amended): a segment of the normalised path for a
concrete suggestion contains neither underscores nor separators. -/
theorem claim_C9_relpath_shape_witness :
    "a-b".data ∈ splitCh '/' (generateRelPathNorm " a_b/c/d/e ".data) ∧
    ('_' ∉ "a-b".data ∧ '/' ∉ "a-b".data) :=
  ⟨by decide, (claim_C9_relpath_shape " a_b/c/d/e ".data).2 "a-b".data (by decide)⟩

/-- Witness for C10: a slug that sanitises to nothing falls back to
`"note"`. -/
theorem claim_C10_sanitizeSlug_shape_witness :
    sanitizeSlug (trim "  !! ".data) = [] ∧
    generateSlug "  !! ".data = "note".data :=
  ⟨by decide, claim_C10_sanitizeSlug_shape.2.2 "  !! ".data (by decide)⟩

end AINotes
